import Mathlib

/-!
Verification of the WDL-on-Toil workflow translator (`src/toil/wdl/wdltoil.py`).

The Python source is shallowly embedded below.  External collaborators (the
miniwdl parser/evaluator `WDL.*` and the Toil engine) are modelled from the
interfaces the specification gives for them; everything under `src/` is
translated directly.  Python strings are Lean `String`s (character lists for
file names), Python dicts and `WDL.Env.Bindings` are association lists,
exceptions are an explicit `Err` sum carried in `Except`.
-/

/-- Modelled from the spec: the typed WDL value variant (§3 Data Model) of the
external WDL library.  Only the constructors the verified code paths touch are
included.  `bindingsVal` represents a Python `WDL.Env.Bindings` object stored
where a `WDL.Value.Base` is expected (Python is untyped, so
`Bindings.bind(name, value)` accepts any object as `value`; the task-output
code path does exactly that). -/
inductive Value where
  | null
  | bool (b : Bool)
  | int (i : Int)
  | str (s : String)
  | file (name : String)
  | array (xs : List Value)
  | bindingsVal (env : List (String × Value))

/-- Modelled from the spec: `WDL.Env.Bindings`, an immutable map from names to
typed values (§3, §4.1).  Represented as an association list with
first-match lookup; `bindB` keeps keys distinct so that the list length is the
map's cardinality (the `len` used by `combine_bindings`). -/
abbrev Bindings := List (String × Value)

/-- Generic association-list lookup (first match), the embedding of Python
dict / `Bindings` lookup. -/
def alook {A : Type} : List (String × A) → String → Option A
  | [], _ => none
  | p :: t, k => if p.1 = k then some p.2 else alook t k

/-- Lookup in a bindings environment. -/
def lookupB (b : Bindings) (n : String) : Option Value := alook b n

/-- Membership test, the embedding of Python `name in environment`. -/
def memB (b : Bindings) (n : String) : Bool := (lookupB b n).isSome

/-- Remove a name from an environment. -/
def eraseKeyB (b : Bindings) (n : String) : Bindings :=
  b.filter (fun p => p.1 != n)

/-- Modelled from the spec: `Bindings.bind(name, value)` returns a new
environment where `name` is set, shadowing any previous binding (§4.1). -/
def bindB (b : Bindings) (n : String) (v : Value) : Bindings :=
  (n, v) :: eraseKeyB b n

/-- Modelled from the spec: binary right-biased union of environments; every
name bound in `b` wins over `a` (§4.1 merge rule, last argument wins). -/
def merge2 (a b : Bindings) : Bindings :=
  b ++ a.filter (fun p => (alook b p.1).isNone)

/-- Modelled from the spec: `WDL.Env.merge(*bindings)`, the right-biased union
across the whole argument list, later arguments winning (§4.1). -/
def mergeList (l : List Bindings) : Bindings := l.foldl merge2 []

/-- The sort key relation used by `combine_bindings`: compare environments by
cardinality (`len`). -/
def sizeLE (a b : Bindings) : Prop := a.length ≤ b.length

instance sizeLE.decRel : DecidableRel sizeLE := fun a b => Nat.decLe _ _

instance sizeLE.total : IsTotal Bindings sizeLE :=
  ⟨fun a b => Nat.le_total a.length b.length⟩

instance sizeLE.trans : IsTrans Bindings sizeLE :=
  ⟨fun _ _ _ h1 h2 => Nat.le_trans h1 h2⟩

/-- Strict version of the sort key relation. -/
def sizeLT (a b : Bindings) : Prop := a.length < b.length

instance sizeLT.antisymm : IsAntisymm Bindings sizeLT :=
  ⟨fun _ _ h1 h2 => absurd h2 (Nat.lt_asymm h1)⟩

/-- Embedding of `combine_bindings` (wdltoil.py lines 39-49): sort the
incoming environments ascending by cardinality (Python `sorted` is stable;
`insertionSort` with a `≤` key is the same stable sort) and merge them, the
largest environment last and therefore winning. -/
def combine_bindings (all_bindings : List Bindings) : Bindings :=
  mergeList (List.insertionSort sizeLE all_bindings)

/-- Errors raised by the embedded code.  `nameError`, `keyError` and
`attributeError` are ordinary Python exceptions (unbound local, missing dict
key, missing attribute); the others model the `WDL.Error` hierarchy and the
control-flow exceptions the source can raise. -/
inductive Err where
  | evalError (msg : String)
  | nameResolution (n : String)
  | nameError (n : String)
  | keyError (n : String)
  | invalidType (msg : String)
  | assertionError
  | stopIteration
  | commandFailed (code : Nat)
  | attributeError (attr : String)
deriving DecidableEq

/-- Modelled from the spec: a WDL static type, of which the verified code only
inspects the `optional` attribute (§3: optionality is a type-level
attribute). -/
structure WDLType where
  optional : Bool
deriving DecidableEq

/-- Modelled from the spec: the standard-library shim handed to the evaluator;
the code only distinguishes the general flavor from the task-outputs flavor
(§4.2). -/
structure StdLib where
  taskOutputs : Bool
deriving DecidableEq

/-- The shim built by `ToilWDLStdLibBase(file_store)`. -/
def stdLibBase : StdLib := ⟨false⟩

/-- The shim built by `ToilWDLStdLibTaskOutputs(file_store)`. -/
def stdLibTaskOutputs : StdLib := ⟨true⟩

/-- Modelled from the spec: WDL expressions, specified only through the
external evaluator interface `expr.eval(env, stdlib)` (§6); literals and name
references are enough for the verified code paths, which never inspect an
expression themselves. -/
inductive Expr where
  | const (v : Value)
  | varRef (n : String)

/-- Modelled from the spec: `expr.eval(env, stdlib) → TypedValue` (§6); a name
missing from the environment is a name-resolution error (§7). -/
def evalExpr (e : Expr) (env : Bindings) (_lib : StdLib) : Except Err Value :=
  match e with
  | .const v => .ok v
  | .varRef n =>
      match lookupB env n with
      | some v => .ok v
      | none => .error (.nameResolution n)

/-- Embedding of the Python truthiness test `expected_type and
expected_type.optional` (wdltoil.py line 173): `None` is falsy, a type object
is truthy. -/
def tyTruthyOptional : Option WDLType → Bool
  | none => false
  | some t => t.optional

/-- Embedding of `evaluate_named_expression` (wdltoil.py lines 167-184).  The
`context` parameter only feeds the source position of the raised
`WDL.Error.EvalError` and is dropped; the error message is kept verbatim. -/
def evaluate_named_expression (name : String) (expected_ty : Option WDLType)
    (expression : Option Expr) (environment : Bindings) (lib : StdLib) :
    Except Err Value :=
  match expression with
  | none =>
      if tyTruthyOptional expected_ty then .ok .null
      else .error (.evalError ("Cannot evaluate no expression for " ++ name))
  | some e => evalExpr e environment lib

/-- A WDL declaration node: `WDL.Tree.Decl` projected to the fields the
verified code reads (`name`, `type`, `expr`). -/
structure Decl where
  name : String
  ty : WDLType
  expr : Option Expr

/-- Embedding of `evaluate_decl` (wdltoil.py lines 186-191). -/
def evaluate_decl (node : Decl) (environment : Bindings) (lib : StdLib) :
    Except Err Value :=
  evaluate_named_expression node.name (some node.ty) node.expr environment lib

/-- Embedding of `evaluate_call_inputs` (wdltoil.py lines 193-202); the dict
of named expressions is an association list in insertion order. -/
def evaluate_call_inputs (expressions : List (String × Expr))
    (environment : Bindings) (lib : StdLib) : Except Err Bindings :=
  expressions.foldlM
    (fun acc kv =>
      (evaluate_named_expression kv.1 none (some kv.2) environment lib).map
        (fun v => bindB acc kv.1 v))
    ([] : Bindings)

/-- Embedding of `evaluate_defaultable_decl` (wdltoil.py lines 204-214).  The
`environment[node.name]` dict access is guarded by the membership test, so the
`keyError` arm is unreachable. -/
def evaluate_defaultable_decl (node : Decl) (environment : Bindings)
    (lib : StdLib) : Except Err Value :=
  if memB environment node.name then
    match lookupB environment node.name with
    | some v => .ok v
    | none => .error (.keyError node.name)
  else
    evaluate_decl node environment lib

/-- Modelled from the spec: `Bindings.enter_namespace(name)` narrows the
environment to the sub-namespace `name.` (§4.1); dotted names are plain
strings, so this strips the `name.` key material. -/
def enterNamespaceB (b : Bindings) (ns : String) : Bindings :=
  b.filterMap
    (fun p =>
      if (ns ++ ".").isPrefixOf p.1 then some (p.1.drop (ns.length + 1), p.2)
      else none)

/-- Modelled from the spec: `Bindings.wrap_namespace(name)` lifts every
binding under `name.` (§4.1). -/
def wrapNamespaceB (b : Bindings) (ns : String) : Bindings :=
  b.map (fun p => (ns ++ "." ++ p.1, p.2))

/-- A WDL task node (`WDL.Tree.Task`) projected to the fields `WDLTaskJob.run`
reads.  `inputs` is optional because the source tests its truthiness
(`if self._task.inputs:`). -/
structure WTask where
  name : String
  inputs : Option (List Decl)
  postinputs : List Decl
  runtime : List (String × Expr)
  command : Option Expr
  outputs : List Decl

/-- Folding helper for the input/postinput loops of `WDLTaskJob.run` and
`WDLWorkflowJob.run`: bind each declaration via
`evaluate_defaultable_decl`. -/
def bindDecls (ds : List Decl) (b : Bindings) (lib : StdLib) :
    Except Err Bindings :=
  ds.foldlM
    (fun acc d =>
      (evaluate_defaultable_decl d acc lib).map (fun v => bindB acc d.name v))
    b

/-- Embedding of `WDLTaskJob.run` (wdltoil.py lines 253-290).  `shell` is the
external `subprocess.check_call` collaborator, returning the command's exit
status (nonzero raises).  The output loop is translated verbatim from line
288: `output_bindings.bind(output_decl.name, bindings, outputs_library)` binds
the whole `bindings` environment object as the value (and passes the
task-outputs shim as `bind`'s third, `info`, parameter, which the embedding
drops); the output declaration's expression is never evaluated. -/
def WDLTaskJob.run (shell : String → Nat) (task : WTask)
    (prev_node_results : List Bindings) : Except Err Bindings := do
  let bindings0 := combine_bindings prev_node_results
  let bindings1 ←
    match task.inputs with
    | some input_decls => bindDecls input_decls bindings0 stdLibBase
    | none => pure bindings0
  let bindings ← bindDecls task.postinputs bindings1 stdLibBase
  let _runtime_bindings ← evaluate_call_inputs task.runtime bindings stdLibBase
  match task.command with
  | some cmd => do
      let command_string ←
        evaluate_named_expression "command" (some ⟨false⟩) (some cmd) bindings
          stdLibBase
      match command_string with
      | .str s =>
          if shell s = 0 then pure ()
          else throw (.commandFailed (shell s))
      | _ => throw .assertionError
  | none => pure ()
  let _outputs_library := stdLibTaskOutputs
  let output_bindings :=
    task.outputs.foldl
      (fun acc output_decl =>
        bindB acc output_decl.name (Value.bindingsVal bindings))
      ([] : Bindings)
  return output_bindings

/-- A WDL workflow node as seen by the subgraph scheduler: its stable
`workflow_node_id` and its static `workflow_node_dependencies` (a Python set,
modelled as a list; the theorems assume it duplicate-free as a set is). -/
structure WNode where
  id : String
  deps : List String

/-- The ids of a node list (the keys of `wdl_id_to_wdl_node`). -/
def idsOf (nodes : List WNode) : List String := nodes.map (fun n => n.id)

/-- Embedding of the per-node dependency restriction (wdltoil.py line 419):
only dependencies that are ids of nodes in the current list survive. -/
def inListDeps (nodes : List WNode) (n : WNode) : List String :=
  n.deps.filter (fun d => (idsOf nodes).contains d)

/-- Lookup of a node by id, the embedding of `wdl_id_to_wdl_node[...]`
(node ids are unique in a miniwdl workflow, which the theorems assume). -/
def findNode (nodes : List WNode) (nid : String) : Option WNode :=
  nodes.find? (fun n => n.id == nid)

/-- The intra-list dependencies of the node with the given id
(`wdl_id_to_dependency_ids[nid]`). -/
def depsOf (nodes : List WNode) (nid : String) : List String :=
  match findNode nodes nid with
  | some n => inListDeps nodes n
  | none => []

/-- The in-list dependents of a node id (`wdl_id_to_dependent_ids[nid]`,
a set in the source, here in node-list order). -/
def dependentsOf (nodes : List WNode) (nid : String) : List String :=
  (nodes.filter (fun m => (inListDeps nodes m).contains nid)).map
    (fun m => m.id)

/-- A predecessor value wired into a submitted unit: either the forward
reference `job.rv()` to another unit's return value, or a literal bindings
environment. -/
inductive RVal where
  | future (jobId : Nat)
  | envv (b : Bindings)

/-- A scatter node (`WDL.Tree.Scatter`) projected to the fields the verified
code reads: the bound variable, the array expression, the body node list. -/
structure ScatterNode where
  varName : String
  scExpr : Expr
  body : List WNode

/-- The kind of a submitted Toil job, tagged with the payload its constructor
received. -/
inductive JobKind where
  | nodeJob (w : WNode)
  | combine
  | namespaceJob (ns : String)
  | taskJob (taskName : String)
  | workflowJob (workflowName : String)
  | scatterJob (sc : ScatterNode)

/-- A submitted Toil job: engine identity, kind, and the
`prev_node_results` list it was constructed with. -/
structure JobRec where
  jid : Nat
  kind : JobKind
  preds : List RVal

/-- Whether a job is a `WDLCombineBindingsJob`. -/
def JobRec.isCombine (j : JobRec) : Bool :=
  match j.kind with
  | .combine => true
  | _ => false

/-- The WDL node id a job evaluates, when it is a `WDLWorkflowNodeJob`. -/
def JobRec.nodeIdOf (j : JobRec) : Option String :=
  match j.kind with
  | .nodeJob w => some w.id
  | _ => none

/-- The callee of a call node: a task, a workflow (payload elided: no claim
runs a sub-workflow), or any other object (the invalid case). -/
inductive Callee where
  | task (t : WTask)
  | workflow (name : String)
  | other (typeName : String)

/-- A call node (`WDL.Tree.Call`) projected to the fields
`WDLWorkflowNodeJob.run` reads. -/
structure CallNode where
  name : String
  inputs : List (String × Expr)
  callee : Callee

/-- The dynamic kind dispatch of `WDLWorkflowNodeJob.run`: the node is a
declaration, a call, a scatter, or something the code does not handle. -/
inductive RunNode where
  | decl (d : Decl)
  | call (c : CallNode)
  | scatter (sc : ScatterNode)
  | other (typeName : String)

/-- Embedding of `WDLWorkflowNodeJob.run` (wdltoil.py lines 303-356).  Jobs
created by the run are returned with fresh ids from `nextId`; the result is
the value `run` returns (a bindings environment or a promise).  In the branch
for a callee that is neither workflow nor task, the source (line 337) raises
`WDL.Error.InvalidType(node, ...)` where `node` is an unbound local variable
(the attribute is `self._node`), so Python raises `NameError: name 'node' is
not defined' while constructing the exception; the embedding surfaces that as
`Err.nameError "node"`. -/
def WDLWorkflowNodeJob.run (node : RunNode) (prev_node_results : List Bindings)
    (nextId : Nat) : Except Err (List JobRec × RVal × Nat) := do
  let incoming_bindings := combine_bindings prev_node_results
  let _standard_library := stdLibBase
  match node with
  | .decl d => do
      let value ← evaluate_decl d incoming_bindings stdLibBase
      return ([], .envv (bindB incoming_bindings d.name value), nextId)
  | .call c => do
      let input_bindings ←
        evaluate_call_inputs c.inputs incoming_bindings stdLibBase
      let passed_down_bindings := enterNamespaceB incoming_bindings c.name
      let subKind ←
        (match c.callee with
          | .workflow wname => pure (JobKind.workflowJob wname)
          | .task t => pure (JobKind.taskJob t.name)
          | .other _ => throw (Err.nameError "node") :
          Except Err JobKind)
      let subjob : JobRec :=
        ⟨nextId, subKind, [.envv input_bindings, .envv passed_down_bindings]⟩
      let namespace_job : JobRec :=
        ⟨nextId + 1, .namespaceJob c.name, [.future subjob.jid]⟩
      let combine_job : JobRec :=
        ⟨nextId + 2, .combine,
          [.future namespace_job.jid, .envv incoming_bindings]⟩
      return ([subjob, namespace_job, combine_job], .future combine_job.jid,
        nextId + 3)
  | .scatter sc =>
      let subjob : JobRec := ⟨nextId, .scatterJob sc, [.envv incoming_bindings]⟩
      return ([subjob], .future subjob.jid, nextId + 1)
  | .other typeName =>
      throw (.invalidType ("Unimplemented WorkflowNode: " ++ typeName))

/-- Generic simultaneous association-list lookup, the embedding of a Python
list comprehension of dict accesses: `None` (a `KeyError`) as soon as one key
is missing. -/
def lookupAll {A : Type} (em : List (String × A)) : List String → Option (List A)
  | [] => some []
  | d :: ds =>
      match alook em d with
      | none => none
      | some j =>
          match lookupAll em ds with
          | none => none
          | some js => some (j :: js)

/-- Test whether a scheduling dict maps a key to the empty list
(`len(outstanding[k]) == 0` guarded by the key's presence). -/
def isEmptyEntry (o : List (String × List String)) (k : String) : Bool :=
  match alook o k with
  | some [] => true
  | _ => false

/-- The mutable state of the scheduling loop of
`WDLSectionJob.create_subgraph`: the outstanding-dependency dict, the ready
set, the emitted jobs keyed by node id (`wdl_id_to_toil_job`), the jobs in
emission order, the leaf ids, and the next fresh engine job id.  Python sets
are modelled as duplicate-free lists; the source's arbitrary
`next(iter(ready_node_ids))` choice is fixed to the head of the ready list
(the claims proved below do not depend on the choice). -/
structure SchedState where
  outstanding : List (String × List String)
  ready : List String
  emitted : List (String × Nat)
  jobs : List JobRec
  leaves : List String
  nextId : Nat

/-- One iteration of the `while` loop of `create_subgraph` (wdltoil.py lines
440-485): pick a ready node, delete it from the ready set and the outstanding
dict, collect the return values of the jobs of its in-list dependencies, add
the seed environment, emit its `WDLWorkflowNodeJob`, record it as a leaf when
nothing depends on it, and otherwise strike it from its dependents'
outstanding lists, readying those that reach zero.  An empty ready set with
work outstanding is the source's uncaught `StopIteration` from
`next(iter(...))`. -/
def stepOnce (nodes : List WNode) (envSeed : Bindings) (s : SchedState) :
    Except Err SchedState :=
  match s.ready with
  | [] => .error .stopIteration
  | nodeId :: restReady =>
      match findNode nodes nodeId with
      | none => .error (.keyError nodeId)
      | some w =>
          match lookupAll s.emitted (inListDeps nodes w) with
          | none => .error (.keyError nodeId)
          | some prevIds =>
              let rvs := prevIds.map RVal.future ++ [RVal.envv envSeed]
              let job : JobRec := ⟨s.nextId, .nodeJob w, rvs⟩
              let outstanding1 :=
                (s.outstanding.filter (fun p => p.1 != nodeId)).map
                  (fun p =>
                    if (dependentsOf nodes nodeId).contains p.1 then
                      (p.1, p.2.erase nodeId)
                    else p)
              let newlyReady :=
                (dependentsOf nodes nodeId).filter
                  (fun d => isEmptyEntry outstanding1 d)
              .ok
                { outstanding := outstanding1,
                  ready := restReady ++ newlyReady,
                  emitted := s.emitted ++ [(nodeId, s.nextId)],
                  jobs := s.jobs ++ [job],
                  leaves :=
                    if (dependentsOf nodes nodeId).isEmpty then
                      s.leaves ++ [nodeId]
                    else s.leaves,
                  nextId := s.nextId + 1 }

/-- The `while len(outstanding) > 0` loop, with fuel.  Each successful
iteration removes exactly one key from the outstanding dict, so
`nodes.length` fuel always suffices; running out of fuel is reported like the
loop's own failure mode and is proved unreachable. -/
def runLoop (nodes : List WNode) (envSeed : Bindings) :
    Nat → SchedState → Except Err SchedState
  | 0, s => if s.outstanding.isEmpty then .ok s else .error .stopIteration
  | fuel + 1, s =>
      if s.outstanding.isEmpty then .ok s
      else
        match stepOnce nodes envSeed s with
        | .error e => .error e
        | .ok s' => runLoop nodes envSeed fuel s'

/-- Embedding of `WDLSectionJob.create_subgraph` (wdltoil.py lines 403-498).
Engine jobs get fresh ids from `nextId`; the result is the list of jobs this
invocation created (node jobs in emission order, then the sink), the sink's
job id (the returned `Job`), and the next fresh id.  The source keys its
dicts by `workflow_node_id`; node ids are unique in a miniwdl workflow, which
the theorems assume, so the dicts are association lists in node-list order. -/
def WDLSectionJob.create_subgraph (nodes : List WNode) (environment : Bindings)
    (nextId : Nat) : Except Err (List JobRec × Nat × Nat) :=
  let initOutstanding := nodes.map (fun n => (n.id, inListDeps nodes n))
  let s0 : SchedState :=
    { outstanding := initOutstanding,
      ready := (initOutstanding.filter (fun p => p.2.isEmpty)).map (fun p => p.1),
      emitted := [], jobs := [], leaves := [], nextId := nextId }
  match runLoop nodes environment nodes.length s0 with
  | .error e => .error e
  | .ok s =>
      match lookupAll s.emitted s.leaves with
      | none => .error (.keyError "leaf")
      | some leafIds =>
          let leafRVs := leafIds.map RVal.future ++ [RVal.envv environment]
          let sink : JobRec := ⟨s.nextId, .combine, leafRVs⟩
          .ok (s.jobs ++ [sink], s.nextId, s.nextId + 1)

/-- The `for item in scatter_value.value` loop of `WDLScatterJob.run`: one
`create_subgraph` invocation per array element, seeded with the combined
environment extended by binding the scatter variable to the element; collects
each invocation's created jobs and sink job id. -/
def scatterFold (body : List WNode) (varName : String) (bindings : Bindings)
    (items : List Value) (nextId : Nat) :
    Except Err (List (List JobRec × Nat) × Nat) :=
  match items with
  | [] => .ok ([], nextId)
  | item :: rest =>
      match WDLSectionJob.create_subgraph body (bindB bindings varName item)
          nextId with
      | .error e => .error e
      | .ok (jobs, sinkId, nid1) =>
          match scatterFold body varName bindings rest nid1 with
          | .error e => .error e
          | .ok (parts, nid2) => .ok ((jobs, sinkId) :: parts, nid2)

/-- Embedding of `WDLScatterJob.run` (wdltoil.py lines 523-552): combine the
predecessors, evaluate the scatter expression (via
`evaluate_named_expression` with no expected type), assert it is an Array,
build one subgraph per element, and submit a gather
`WDLCombineBindingsJob` over the subgraph sinks' futures, returning its
future. -/
def WDLScatterJob.run (sc : ScatterNode) (prev_node_results : List Bindings)
    (nextId : Nat) : Except Err (List JobRec × RVal × Nat) :=
  let bindings := combine_bindings prev_node_results
  match evaluate_named_expression sc.varName none (some sc.scExpr) bindings
      stdLibBase with
  | .error e => .error e
  | .ok scatter_value =>
      match scatter_value with
      | .array items =>
          match scatterFold sc.body sc.varName bindings items nextId with
          | .error e => .error e
          | .ok (parts, nid) =>
              let gather_job : JobRec :=
                ⟨nid, .combine, parts.map (fun p => RVal.future p.2)⟩
              .ok ((parts.map (fun p => p.1)).flatten ++ [gather_job],
                .future gather_job.jid, nid + 1)
      | _ => .error .assertionError

/-- A loaded WDL document as `main` inspects it: whether it has a workflow
(payload elided to the workflow name). -/
structure WDoc where
  workflow : Option String

/-- The outcome of the embedded `main` fragment: a Python `AttributeError`,
an explicit `sys.exit`, or the submission of the root workflow job to the
engine. -/
inductive MainOutcome where
  | attrError (attr : String)
  | exited (code : Nat)
  | started (workflowName : String)
deriving DecidableEq

/-- The attributes of a Python `logging.Logger` that the code could call;
`crical` is not one of them. -/
def loggerAttrs : List String :=
  ["debug", "info", "warning", "error", "critical", "exception", "log"]

/-- Embedding of the non-restart path of `main` after the document is loaded
(wdltoil.py lines 626-642).  When the document has no workflow the source
runs `logger.crical(...)` before `sys.exit(1)`; `crical` is not an attribute
of `Logger`, so Python raises `AttributeError` on that line and the
`sys.exit(1)` is never reached.  With a workflow present, the inputs are
loaded and the root `WDLWorkflowJob` is submitted (`started`). -/
def mainOnDocument (doc : WDoc) : MainOutcome :=
  match doc.workflow with
  | none =>
      if loggerAttrs.contains "crical" then .exited 1
      else .attrError "crical"
  | some w => .started w

/-- File names as Python byte-for-byte strings (character lists), so that
prefix tests are plain list prefixes. -/
abbrev Filename := List Char

/-- The `toilfile:` virtualized-handle marker. -/
def toilfileHeader : Filename := "toilfile:".toList

/-- Modelled from the spec: the per-unit file store (§6 engine contract);
`writePack` is `writeGlobalFile(path).pack()`, producing the packed handle
text for a local path. -/
structure FileStoreModel where
  writePack : Filename → Filename

/-- Embedding of `ToilWDLStdLibBase._virtualize_filename` (wdltoil.py lines
135-149).  The boolean records whether `writeGlobalFile` was called (a
file-store upload happened). -/
def virtualize_filename (fs : FileStoreModel) (filename : Filename) :
    Filename × Bool :=
  if toilfileHeader.isPrefixOf filename then (filename, false)
  else (toilfileHeader ++ fs.writePack filename, true)

/-- The node ids emitted so far, in emission order. -/
def emIds (s : SchedState) : List String := s.emitted.map (fun p => p.1)

/-- Abstract description of the outstanding-dependency dict after the ids in
`em` have been emitted: the not-yet-emitted nodes, in node-list order, each
with its in-list dependencies that are not yet emitted. -/
def outAbs (nodes : List WNode) (em : List String) :
    List (String × List String) :=
  (nodes.filter (fun n => !(em.contains n.id))).map
    (fun n => (n.id, (inListDeps nodes n).filter (fun d => !(em.contains d))))

/-- The engine id of the emitted `WDLWorkflowNodeJob` for a WDL node id. -/
def jobFor (jobs : List JobRec) (nid : String) : Option Nat :=
  (jobs.find? (fun j => j.nodeIdOf == some nid)).map (fun j => j.jid)

/-- Simultaneous `jobFor` over a list of node ids. -/
def jobsFor (jobs : List JobRec) : List String → Option (List Nat)
  | [] => some []
  | d :: ds =>
      match jobFor jobs d with
      | none => none
      | some j =>
          match jobsFor jobs ds with
          | none => none
          | some js => some (j :: js)

/-- A list of node ids is in topological order for the in-list dependency
graph when every id's in-list dependencies occur strictly earlier in the
list. -/
def topoOrderOk (nodes : List WNode) : List String → Bool
  | [] => true
  | o :: rest =>
      (depsOf nodes o).all (fun d => d != o && !(rest.contains d)) &&
        topoOrderOk nodes rest

/-- `ord` witnesses that the intra-list static dependency graph of `nodes` is
acyclic: it is a topological order covering exactly the node ids (the standard
finite-graph characterization of acyclicity). -/
def isTopoOrder (nodes : List WNode) (ord : List String) : Bool :=
  (idsOf nodes).all (fun i => ord.contains i) &&
    ord.all (fun o => (idsOf nodes).contains o) && topoOrderOk nodes ord

/-- The scheduling-loop invariant of `create_subgraph`, relative to the node
list, the seed environment and the first fresh job id: the outstanding dict
is `outAbs` of the emitted ids, the ready list is exactly the keys whose
outstanding list is empty, emitted ids are distinct in-list ids, jobs align
index-wise with the emitted dict, every emitted job is the node job of its
node with predecessors the futures of its in-list dependencies' earlier jobs
followed by the seed environment, and the leaves are the emitted ids without
dependents. -/
structure SchedInv (nodes : List WNode) (envSeed : Bindings) (nid0 : Nat)
    (s : SchedState) : Prop where
  outEq : s.outstanding = outAbs nodes (emIds s)
  readyNodup : s.ready.Nodup
  readyIff : ∀ x, x ∈ s.ready ↔ alook s.outstanding x = some []
  emSub : ∀ x ∈ emIds s, x ∈ idsOf nodes
  emNodup : (emIds s).Nodup
  lenEq : s.jobs.length = s.emitted.length
  nextEq : s.nextId = nid0 + s.jobs.length
  emJobs : ∀ d, alook s.emitted d = jobFor s.jobs d
  jobSpec : ∀ k jb, s.jobs[k]? = some jb →
    ∃ w, w ∈ nodes ∧ jb.kind = .nodeJob w ∧ jb.jid = nid0 + k ∧
      s.emitted[k]? = some (w.id, nid0 + k) ∧
      ∃ ds, lookupAll (s.emitted.take k) (inListDeps nodes w) = some ds ∧
        jb.preds = ds.map RVal.future ++ [RVal.envv envSeed]
  leavesEq : s.leaves =
    (emIds s).filter (fun x => (dependentsOf nodes x).isEmpty)

/-- What claim C1 asserts of a completed `create_subgraph` invocation: the
job list ends with the unique Combine job, which is the returned sink; the
sink's predecessors are the futures of exactly the leaf nodes' jobs followed
by the seed environment; and every node job's predecessors are the futures of
exactly its in-list static dependencies' jobs followed by the seed
environment. -/
def C1Concl (nodes : List WNode) (environment : Bindings) (jobs : List JobRec)
    (sinkId : Nat) : Prop :=
  ∃ sink leafIds ljs,
    jobs.getLast? = some sink ∧ sink.jid = sinkId ∧ sink.kind = .combine ∧
    (jobs.filter (fun j => j.isCombine)).length = 1 ∧
    leafIds.Nodup ∧
    (∀ x, x ∈ leafIds ↔
      x ∈ idsOf nodes ∧ (dependentsOf nodes x).isEmpty = true) ∧
    jobsFor jobs leafIds = some ljs ∧
    sink.preds = ljs.map RVal.future ++ [RVal.envv environment] ∧
    ∀ jb ∈ jobs, ∀ w, jb.kind = .nodeJob w →
      ∃ ds, jobsFor jobs (inListDeps nodes w) = some ds ∧
        jb.preds = ds.map RVal.future ++ [RVal.envv environment]

/-- What claim C8 asserts of `create_subgraph` on an acyclic node list: the
loop terminates having emitted exactly one node job per node (plus the sink),
and in an order where every node's in-list dependencies were emitted at
strictly earlier positions. -/
def C8Concl (nodes : List WNode) (jobs : List JobRec) : Prop :=
  ∃ (nodeJobs : List JobRec) (sink : JobRec),
    jobs = nodeJobs ++ [sink] ∧ sink.kind = .combine ∧
    (nodeJobs.filterMap (fun j => j.nodeIdOf)).Perm (idsOf nodes) ∧
    (∀ jb ∈ nodeJobs, ∃ w, w ∈ nodes ∧ jb.kind = .nodeJob w) ∧
    ∀ (k : Nat) (jb : JobRec), nodeJobs[k]? = some jb →
      ∀ w, jb.kind = .nodeJob w →
        ∀ d ∈ inListDeps nodes w,
          ∃ (k' : Nat) (jb' : JobRec), k' < k ∧ nodeJobs[k']? = some jb' ∧
            jb'.nodeIdOf = some d

/-- The pairwise-distinct-cardinalities hypothesis of claim C2. -/
def distinctSizes (l : List Bindings) : Prop :=
  l.Pairwise (fun a b => a.length ≠ b.length)

/-- The last environment in the list that binds `n` (the merge winner under
the right-biased rule). -/
def lastDef (l : List Bindings) (n : String) : Option Bindings :=
  l.foldl (fun acc e => if memB e n then some e else acc) none

/-!  Theorems.  Each claim Cn of the specification review is settled by one
theorem named `cN_...`, with witnesses instantiating the hypothesised ones. -/

/-- C10: `_virtualize_filename` always returns a string starting with
`toilfile:`, and it is idempotent: a second application takes the
already-virtualized branch and performs no file-store upload. -/
theorem c10_virtualize_prefixed_idempotent (fs : FileStoreModel)
    (f : Filename) :
    toilfileHeader.isPrefixOf (virtualize_filename fs f).1 = true ∧
    virtualize_filename fs (virtualize_filename fs f).1 =
      ((virtualize_filename fs f).1, false) := by
  have hpre : ∀ t : Filename,
      toilfileHeader.isPrefixOf (toilfileHeader ++ t) = true := fun t =>
    List.isPrefixOf_iff_prefix.mpr (List.prefix_append _ _)
  by_cases h : toilfileHeader.isPrefixOf f = true
  · refine ⟨by simp [virtualize_filename, h], by simp [virtualize_filename, h]⟩
  · have h' : toilfileHeader.isPrefixOf f = false := Bool.eq_false_iff.mpr h
    refine ⟨by simp [virtualize_filename, h', hpre],
      by simp [virtualize_filename, h', hpre]⟩

/-- C9: on a document without a workflow, `main` does not report the error
and exit with code 1; the `logger.crical` typo raises `AttributeError`
first (no unit is submitted either way, but the claimed reporting and
explicit exit never happen). -/
theorem c9_main_no_workflow_attribute_error :
    mainOnDocument ⟨none⟩ = .attrError "crical" ∧
    mainOnDocument ⟨none⟩ ≠ .exited 1 ∧
    ∀ w, mainOnDocument ⟨none⟩ ≠ MainOutcome.started w := by
  refine ⟨by decide, by decide, ?_⟩
  intro w h
  rw [show mainOnDocument ⟨none⟩ = .attrError "crical" from by decide] at h
  exact MainOutcome.noConfusion h

/-- C5: `evaluate_named_expression` returns Null when the expression is
absent and the expected type is optional, fails with an evaluation error
naming the binding when the expression is absent and the expected type is
non-optional or absent, and otherwise evaluates the expression against the
given environment and standard library. -/
theorem c5_evaluate_named_expression_cases (name : String)
    (ety : Option WDLType) (expression : Option Expr) (env : Bindings)
    (lib : StdLib) :
    (expression = none → tyTruthyOptional ety = true →
      evaluate_named_expression name ety expression env lib = .ok .null) ∧
    (expression = none → tyTruthyOptional ety = false →
      evaluate_named_expression name ety expression env lib =
        .error (.evalError ("Cannot evaluate no expression for " ++ name))) ∧
    ∀ e, expression = some e →
      evaluate_named_expression name ety expression env lib =
        evalExpr e env lib := by
  refine ⟨fun he ht => ?_, fun he ht => ?_, fun e he => ?_⟩ <;> subst he
  · simp [evaluate_named_expression, ht]
  · simp [evaluate_named_expression, ht]
  · simp [evaluate_named_expression]

/-- Witness for C5: the three cases at concrete inputs. -/
theorem c5_witness :
    evaluate_named_expression "x" (some ⟨true⟩) none [] stdLibBase =
      .ok .null ∧
    evaluate_named_expression "y" none none [] stdLibBase =
      .error (.evalError ("Cannot evaluate no expression for " ++ "y")) ∧
    evaluate_named_expression "z" none (some (.const (.int 3))) []
      stdLibBase = evalExpr (.const (.int 3)) [] stdLibBase :=
  ⟨(c5_evaluate_named_expression_cases "x" (some ⟨true⟩) none []
      stdLibBase).1 rfl rfl,
   (c5_evaluate_named_expression_cases "y" none none [] stdLibBase).2.1
      rfl rfl,
   (c5_evaluate_named_expression_cases "z" none (some (.const (.int 3)))
      [] stdLibBase).2.2 _ rfl⟩

/-- C6: `evaluate_defaultable_decl` returns the environment's existing value
for the declaration's name when present (so a supplied workflow input
overrides the declared default), and otherwise evaluates the declaration's
default expression. -/
theorem c6_evaluate_defaultable_decl_cases (node : Decl) (env : Bindings)
    (lib : StdLib) :
    (∀ v, lookupB env node.name = some v →
      evaluate_defaultable_decl node env lib = .ok v) ∧
    (lookupB env node.name = none →
      evaluate_defaultable_decl node env lib =
        evaluate_decl node env lib) := by
  constructor
  · intro v hv
    simp [evaluate_defaultable_decl, memB, hv]
  · intro hv
    simp [evaluate_defaultable_decl, memB, hv]

/-- Witness for C6: a supplied input value 5 overrides the declared default
10 (scenario S2), while an unbound name falls back to its default. -/
theorem c6_witness :
    evaluate_defaultable_decl ⟨"x", ⟨false⟩, some (.const (.int 10))⟩
      [("x", .int 5)] stdLibBase = .ok (.int 5) ∧
    evaluate_defaultable_decl ⟨"y", ⟨false⟩, some (.const (.int 10))⟩
      [("x", .int 5)] stdLibBase =
      evaluate_decl ⟨"y", ⟨false⟩, some (.const (.int 10))⟩
        [("x", .int 5)] stdLibBase :=
  ⟨(c6_evaluate_defaultable_decl_cases _ _ _).1 (.int 5) rfl,
   (c6_evaluate_defaultable_decl_cases _ _ _).2 rfl⟩

/-- C3: the task-output loop of `WDLTaskJob.run` does not evaluate the output
declarations: on a task with the single output `Int out = 1` it binds `out`
to the whole input environment object (`bindingsVal`), although evaluating
the output declaration under the task-outputs shim would give `1`. -/
theorem c3_task_run_outputs_not_evaluated :
    WDLTaskJob.run (fun _ => 0)
      ⟨"t", none, [], [], none, [⟨"out", ⟨false⟩, some (.const (.int 1))⟩]⟩
      [[("x", .int 2)]] =
      .ok [("out", .bindingsVal [("x", .int 2)])] ∧
    evaluate_decl ⟨"out", ⟨false⟩, some (.const (.int 1))⟩ [("x", .int 2)]
      stdLibTaskOutputs = .ok (.int 1) :=
  ⟨rfl, rfl⟩

/-- C4: running a `WDLWorkflowNodeJob` on a call whose callee is neither task
nor workflow does not fail with the invalid-callee error: the source
references the unbound local `node` while building that error, so the run
fails with a Python `NameError` instead. -/
theorem c4_call_invalid_callee_name_error :
    WDLWorkflowNodeJob.run (.call ⟨"c", [], .other "NoneType"⟩) [[]] 0 =
      .error (.nameError "node") ∧
    ∀ m, WDLWorkflowNodeJob.run (.call ⟨"c", [], .other "NoneType"⟩) [[]] 0 ≠
      .error (.invalidType m) := by
  refine ⟨rfl, fun m h => ?_⟩
  rw [show WDLWorkflowNodeJob.run (.call ⟨"c", [], .other "NoneType"⟩) [[]] 0 =
      .error (.nameError "node") from rfl] at h
  simp at h

/-- Association lookup distributes over append. -/
theorem alook_append {A : Type} (a b : List (String × A)) (k : String) :
    alook (a ++ b) k = (alook a k).orElse (fun _ => alook b k) := by
  induction a with
  | nil => simp [alook]
  | cons p t ih =>
      by_cases h : p.1 = k
      · simp [alook, h]
      · simp [alook, h, ih]

/-- Filtering out the names already bound in `b` does not change lookups of
names unbound in `b`. -/
theorem alook_filter_of_none (a b : Bindings) (n : String)
    (hb : alook b n = none) :
    alook (a.filter (fun p => (alook b p.1).isNone)) n = alook a n := by
  induction a with
  | nil => simp
  | cons p t ih =>
      by_cases h : p.1 = n
      · have hcond : (alook b p.1).isNone = true := by rw [h, hb]; rfl
        rw [List.filter_cons, if_pos hcond]
        simp [alook, h]
      · by_cases hf : (alook b p.1).isNone = true
        · simp [List.filter_cons, hf, alook, h, ih]
        · simp [List.filter_cons, hf, alook, h, ih]

/-- Lookup in a binary merge: the right argument wins. -/
theorem lookupB_merge2 (a b : Bindings) (n : String) :
    lookupB (merge2 a b) n = (lookupB b n).orElse (fun _ => lookupB a n) := by
  unfold merge2 lookupB
  rw [alook_append]
  cases hb : alook b n with
  | some v => rfl
  | none => simp [alook_filter_of_none a b n hb]

/-- `mergeList` over a snoc. -/
theorem mergeList_snoc (l : List Bindings) (b : Bindings) :
    mergeList (l ++ [b]) = merge2 (mergeList l) b := by
  simp [mergeList, List.foldl_append]

/-- `lastDef` over a snoc. -/
theorem lastDef_snoc (l : List Bindings) (b : Bindings) (n : String) :
    lastDef (l ++ [b]) n = if memB b n then some b else lastDef l n := by
  simp [lastDef, List.foldl_append]

/-- Lookup in a fold of right-biased merges is lookup in the last
environment defining the name. -/
theorem lookupB_mergeList (l : List Bindings) (n : String) :
    lookupB (mergeList l) n = (lastDef l n).bind (fun e => lookupB e n) := by
  induction l using List.reverseRecOn with
  | nil => simp [mergeList, lastDef, lookupB, alook]
  | append_singleton l b ih =>
      rw [mergeList_snoc, lastDef_snoc, lookupB_merge2]
      by_cases hb : memB b n
      · have : ∃ v, lookupB b n = some v := by
          unfold memB at hb
          exact Option.isSome_iff_exists.mp hb
        obtain ⟨v, hv⟩ := this
        simp [hb, hv]
      · have hv : lookupB b n = none := by
          unfold memB at hb
          simpa using hb
        simp [hb, hv, ih]

/-- The last defining environment is a defining member of the list. -/
theorem lastDef_mem (l : List Bindings) (n : String) (e : Bindings)
    (h : lastDef l n = some e) : e ∈ l ∧ memB e n = true := by
  induction l using List.reverseRecOn with
  | nil => simp [lastDef] at h
  | append_singleton l b ih =>
      rw [lastDef_snoc] at h
      by_cases hb : memB b n
      · rw [if_pos hb] at h
        cases h
        exact ⟨List.mem_append_right _ (List.mem_singleton_self _), hb⟩
      · rw [if_neg hb] at h
        obtain ⟨hm, hd⟩ := ih h
        exact ⟨List.mem_append_left _ hm, hd⟩

/-- If some list member defines the name, `lastDef` finds one. -/
theorem lastDef_isSome (l : List Bindings) (n : String) (e : Bindings)
    (he : e ∈ l) (hd : memB e n = true) : (lastDef l n).isSome := by
  induction l using List.reverseRecOn with
  | nil => simp at he
  | append_singleton l b ih =>
      rw [lastDef_snoc]
      by_cases hb : memB b n
      · simp [hb]
      · rw [if_neg hb]
        rcases List.mem_append.mp he with hm | hm
        · exact ih hm
        · rw [List.mem_singleton.mp hm] at hd
          exact absurd hd hb

/-- In a list sorted ascending by size, the last defining environment has
maximal size among defining environments. -/
theorem lastDef_max_of_sorted (l : List Bindings) (n : String)
    (hs : List.Sorted sizeLE l) (e : Bindings) (h : lastDef l n = some e) :
    ∀ e' ∈ l, memB e' n = true → e'.length ≤ e.length := by
  induction l using List.reverseRecOn with
  | nil => simp [lastDef] at h
  | append_singleton l b ih =>
      rw [lastDef_snoc] at h
      have hs' : List.Pairwise sizeLE (l ++ [b]) := hs
      rw [List.pairwise_append] at hs'
      intro e' he' hd'
      rcases List.mem_append.mp he' with hm | hm
      · by_cases hb : memB b n
        · rw [if_pos hb] at h
          have hbe : b = e := Option.some.inj h
          exact le_of_le_of_eq (hs'.2.2 e' hm b (List.mem_singleton_self _))
            (congrArg List.length hbe)
        · rw [if_neg hb] at h
          exact ih hs'.1 h e' hm hd'
      · rw [List.mem_singleton.mp hm] at hd' ⊢
        by_cases hb : memB b n
        · rw [if_pos hb] at h
          exact Nat.le_of_eq (congrArg List.length (Option.some.inj h))
        · exact absurd hd' hb

/-- With pairwise-distinct sizes there is exactly one size-sorted arrangement
of a list of environments: any sorted permutation is the insertion sort. -/
theorem sorted_perm_unique (l s : List Bindings) (hd : distinctSizes l)
    (hp : s.Perm l) (hs : List.Sorted sizeLE s) :
    s = List.insertionSort sizeLE l := by
  have hps : s.Perm (List.insertionSort sizeLE l) :=
    hp.trans (List.perm_insertionSort sizeLE l).symm
  have hsort2 : List.Sorted sizeLE (List.insertionSort sizeLE l) :=
    List.sorted_insertionSort sizeLE l
  have hdS : s.Pairwise (fun a b => a.length ≠ b.length) :=
    (hp.pairwise_iff (fun h => Ne.symm h)).mpr hd
  have hdT : (List.insertionSort sizeLE l).Pairwise
      (fun a b => a.length ≠ b.length) :=
    ((List.perm_insertionSort sizeLE l).pairwise_iff (fun h => Ne.symm h)).mpr hd
  have hstrict1 : s.Pairwise sizeLT :=
    (hs.and hdS).imp (fun h => Nat.lt_of_le_of_ne h.1 h.2)
  have hstrict2 : (List.insertionSort sizeLE l).Pairwise sizeLT :=
    (hsort2.and hdT).imp (fun h => Nat.lt_of_le_of_ne h.1 h.2)
  exact List.eq_of_perm_of_sorted hps hstrict1 hstrict2

/-- C2: `combine_bindings` equals the right-biased merge of its inputs taken
in ascending order of cardinality; permuting inputs of pairwise-distinct
sizes does not change the result; and on any name bound by some input, the
value from the largest binding environment wins. -/
theorem c2_combine_bindings_sorted (l l' s : List Bindings)
    (hd : distinctSizes l) :
    (s.Perm l → List.Sorted sizeLE s → mergeList s = combine_bindings l) ∧
    (l'.Perm l → combine_bindings l' = combine_bindings l) ∧
    (∀ n, (∃ e ∈ l, memB e n = true) →
      ∃ e ∈ l, memB e n = true ∧
        (∀ e' ∈ l, memB e' n = true → e'.length ≤ e.length) ∧
        lookupB (combine_bindings l) n = lookupB e n) := by
  refine ⟨fun hp hs => ?_, fun hp => ?_, fun n hex => ?_⟩
  · rw [sorted_perm_unique l s hd hp hs]
    rfl
  · have hd' : distinctSizes l' := (hp.pairwise_iff (fun h => Ne.symm h)).mpr hd
    have := sorted_perm_unique l (List.insertionSort sizeLE l') hd
      ((List.perm_insertionSort sizeLE l').trans hp)
      (List.sorted_insertionSort sizeLE l')
    unfold combine_bindings
    rw [this]
  · obtain ⟨e0, he0, hm0⟩ := hex
    have he0' : e0 ∈ List.insertionSort sizeLE l :=
      (List.mem_insertionSort sizeLE).mpr he0
    have hsome := lastDef_isSome (List.insertionSort sizeLE l) n e0 he0' hm0
    obtain ⟨e, he⟩ := Option.isSome_iff_exists.mp hsome
    obtain ⟨hmem, hdef⟩ := lastDef_mem _ n e he
    refine ⟨e, (List.mem_insertionSort sizeLE).mp hmem, hdef, ?_, ?_⟩
    · intro e' he' hd'
      exact lastDef_max_of_sorted (List.insertionSort sizeLE l) n
        (List.sorted_insertionSort sizeLE l) e he e'
        ((List.mem_insertionSort sizeLE).mpr he') hd'
    · unfold combine_bindings
      rw [lookupB_mergeList, he]
      rfl

/-- Witness for C2 at two environments of sizes 1 and 2: the merge in
ascending size order, invariance under swapping the inputs, and the win of
the larger environment on the shared name `a`. -/
theorem c2_witness :
    mergeList [[("a", Value.int 1)], [("a", Value.int 2), ("b", Value.int 3)]] =
      combine_bindings
        [[("a", Value.int 1)], [("a", Value.int 2), ("b", Value.int 3)]] ∧
    combine_bindings
        [[("a", Value.int 2), ("b", Value.int 3)], [("a", Value.int 1)]] =
      combine_bindings
        [[("a", Value.int 1)], [("a", Value.int 2), ("b", Value.int 3)]] ∧
    ∃ e ∈ [[("a", Value.int 1)], [("a", Value.int 2), ("b", Value.int 3)]],
      memB e "a" = true ∧
      (∀ e' ∈ [[("a", Value.int 1)], [("a", Value.int 2), ("b", Value.int 3)]],
        memB e' "a" = true → e'.length ≤ e.length) ∧
      lookupB (combine_bindings
        [[("a", Value.int 1)], [("a", Value.int 2), ("b", Value.int 3)]]) "a" =
        lookupB e "a" := by
  have hd : distinctSizes
      [[("a", Value.int 1)], [("a", Value.int 2), ("b", Value.int 3)]] := by
    simp [distinctSizes]
  have h := c2_combine_bindings_sorted
    [[("a", Value.int 1)], [("a", Value.int 2), ("b", Value.int 3)]]
    [[("a", Value.int 2), ("b", Value.int 3)], [("a", Value.int 1)]]
    [[("a", Value.int 1)], [("a", Value.int 2), ("b", Value.int 3)]] hd
  refine ⟨h.1 (List.Perm.refl _) ?_, h.2.1 (List.Perm.swap _ _ _), h.2.2 "a"
    ⟨[("a", Value.int 1)], by simp, rfl⟩⟩
  simp [List.sorted_cons, sizeLE]

/-- Bridging `List.contains` on strings with membership. -/
theorem scontains_mem {l : List String} {a : String} :
    l.contains a = true ↔ a ∈ l := List.elem_iff

/-- An association lookup misses exactly the keys not in the list. -/
theorem alook_eq_none_iff {A : Type} (l : List (String × A)) (k : String) :
    alook l k = none ↔ k ∉ l.map Prod.fst := by
  induction l with
  | nil => simp [alook]
  | cons p t ih =>
      by_cases h : p.1 = k
      · simp [alook, h]
      · simp [alook, h, ih, Ne.symm h]

/-- An association lookup hits exactly the keys in the list. -/
theorem alook_isSome_iff {A : Type} (l : List (String × A)) (k : String) :
    (alook l k).isSome = true ↔ k ∈ l.map Prod.fst := by
  cases ha : alook l k with
  | none => simpa using (alook_eq_none_iff l k).mp ha
  | some v =>
      simp only [Option.isSome_some, true_iff]
      by_contra hk
      rw [(alook_eq_none_iff l k).mpr hk] at ha
      cases ha

/-- A successful association lookup happens at some list position. -/
theorem alook_index {A : Type} (l : List (String × A)) (k : String) (v : A)
    (h : alook l k = some v) : ∃ i, i < l.length ∧ l[i]? = some (k, v) := by
  induction l with
  | nil => simp [alook] at h
  | cons p t ih =>
      by_cases hk : p.1 = k
      · rw [alook, if_pos hk] at h
        refine ⟨0, by simp, ?_⟩
        cases h
        simp [← hk]
      · rw [alook, if_neg hk] at h
        obtain ⟨i, hi, hg⟩ := ih h
        exact ⟨i + 1, by simpa using hi, by simpa using hg⟩

/-- `lookupAll` succeeds when every key is present. -/
theorem lookupAll_isSome {A : Type} (em : List (String × A)) (ds : List String)
    (h : ∀ d ∈ ds, (alook em d).isSome = true) :
    ∃ js, lookupAll em ds = some js := by
  induction ds with
  | nil => exact ⟨[], rfl⟩
  | cons d t ih =>
      obtain ⟨j, hj⟩ := Option.isSome_iff_exists.mp (h d (by simp))
      obtain ⟨js, hjs⟩ := ih (fun x hx => h x (by simp [hx]))
      exact ⟨j :: js, by simp [lookupAll, hj, hjs]⟩

/-- A successful `lookupAll` found every key. -/
theorem lookupAll_mem_isSome {A : Type} (em : List (String × A))
    (ds : List String) (js : List A) (h : lookupAll em ds = some js)
    (d : String) (hd : d ∈ ds) : (alook em d).isSome = true := by
  induction ds generalizing js with
  | nil => simp at hd
  | cons x t ih =>
      rw [lookupAll] at h
      cases hx : alook em x with
      | none => rw [hx] at h; cases h
      | some j =>
          rw [hx] at h
          cases ht : lookupAll em t with
          | none => rw [ht] at h; cases h
          | some js' =>
              rcases List.mem_cons.mp hd with rfl | hdm
              · simp [hx]
              · exact ih js' ht hdm

/-- Extending the association list on the right does not disturb a
successful `lookupAll`. -/
theorem lookupAll_append_right {A : Type} (em e2 : List (String × A))
    (ds : List String) (js : List A) (h : lookupAll em ds = some js) :
    lookupAll (em ++ e2) ds = some js := by
  induction ds generalizing js with
  | nil => cases h; rfl
  | cons x t ih =>
      rw [lookupAll] at h
      cases hx : alook em x with
      | none => rw [hx] at h; cases h
      | some j =>
          rw [hx] at h
          cases ht : lookupAll em t with
          | none => rw [ht] at h; cases h
          | some js' =>
              rw [ht] at h
              cases h
              rw [lookupAll, alook_append, hx, ih js' ht]
              rfl

/-- A `lookupAll` over a prefix extends to the whole list. -/
theorem lookupAll_of_take {A : Type} (em : List (String × A)) (k : Nat)
    (ds : List String) (js : List A)
    (h : lookupAll (em.take k) ds = some js) : lookupAll em ds = some js := by
  have := lookupAll_append_right (em.take k) (em.drop k) ds js h
  rwa [List.take_append_drop] at this

/-- Pointwise equal lookups give equal simultaneous lookups. -/
theorem lookupAll_congr (em : List (String × Nat)) (jobs : List JobRec)
    (hp : ∀ d, alook em d = jobFor jobs d) (ds : List String) :
    lookupAll em ds = jobsFor jobs ds := by
  induction ds with
  | nil => rfl
  | cons d t ih =>
      rw [lookupAll, jobsFor, hp d, ih]
      cases jobFor jobs d <;> cases jobsFor jobs t <;> rfl

/-- Characterization of lookups in `outAbs`-shaped association lists, for a
node list with distinct ids. -/
theorem alook_outAbs_gen (full : List WNode) (em : List String) (x : String) :
    ∀ ms : List WNode, (ms.map (fun n => n.id)).Nodup →
    alook ((ms.filter (fun n => !(em.contains n.id))).map
        (fun n => (n.id, (inListDeps full n).filter
          (fun d => !(em.contains d))))) x =
      match ms.find? (fun n => n.id == x) with
      | some n =>
          if em.contains x then none
          else some ((inListDeps full n).filter (fun d => !(em.contains d)))
      | none => none := by
  intro ms
  induction ms with
  | nil => intro _; simp [alook]
  | cons n t ih =>
      intro hnd
      rw [List.map_cons, List.nodup_cons] at hnd
      by_cases hx : n.id = x
      · have hfind : List.find? (fun n => n.id == x) (n :: t) = some n := by
          rw [List.find?_cons_of_pos]
          simpa using hx
        rw [hfind]
        dsimp only
        by_cases hc : em.contains n.id = true
        · have hcx : em.contains x = true := hx ▸ hc
          have hfneg : ¬((!em.contains n.id) = true) := by rw [hc]; decide
          rw [List.filter_cons, if_neg hfneg, if_pos hcx, alook_eq_none_iff]
          intro hmem
          rw [List.map_map] at hmem
          obtain ⟨m, hm, hmx⟩ := List.mem_map.mp hmem
          apply hnd.1
          rw [hx]
          exact List.mem_map.mpr
            ⟨m, (List.mem_filter.mp hm).1, by simpa using hmx⟩
        · have hc' : em.contains n.id = false := Bool.eq_false_iff.mpr hc
          have hcx : em.contains x = false := hx ▸ hc'
          have hfpos : (!em.contains n.id) = true := by rw [hc']; decide
          have hneg : ¬(em.contains x = true) := by rw [hcx]; decide
          rw [List.filter_cons, if_pos hfpos, List.map_cons]
          simp only [alook]
          rw [if_pos hx, if_neg hneg]
      · have hfind : List.find? (fun n => n.id == x) (n :: t) =
            List.find? (fun n => n.id == x) t := by
          rw [List.find?_cons_of_neg]
          simpa using hx
        rw [hfind, ← ih hnd.2]
        by_cases hc : em.contains n.id = true
        · have hfneg : ¬((!em.contains n.id) = true) := by rw [hc]; decide
          rw [List.filter_cons, if_neg hfneg]
        · have hc' : em.contains n.id = false := Bool.eq_false_iff.mpr hc
          have hfpos : (!em.contains n.id) = true := by rw [hc']; decide
          rw [List.filter_cons, if_pos hfpos, List.map_cons]
          simp only [alook]
          rw [if_neg hx]

/-- Lookup in the outstanding-dependency abstraction. -/
theorem alook_outAbs (nodes : List WNode) (em : List String) (x : String)
    (hids : (idsOf nodes).Nodup) :
    alook (outAbs nodes em) x =
      match findNode nodes x with
      | some n =>
          if em.contains x then none
          else some ((inListDeps nodes n).filter (fun d => !(em.contains d)))
      | none => none :=
  alook_outAbs_gen nodes em x nodes hids

/-- The keys of the outstanding abstraction. -/
theorem mem_keys_outAbs (nodes : List WNode) (em : List String) (x : String) :
    x ∈ (outAbs nodes em).map Prod.fst ↔
      ∃ n ∈ nodes, n.id = x ∧ em.contains x = false := by
  unfold outAbs
  rw [List.map_map]
  simp only [List.mem_map, List.mem_filter, Function.comp_apply,
    Bool.not_eq_true']
  constructor
  · rintro ⟨n, ⟨hn, hc⟩, rfl⟩
    exact ⟨n, hn, rfl, hc⟩
  · rintro ⟨n, hn, rfl, hc⟩
    exact ⟨n, ⟨hn, hc⟩, rfl⟩

/-- In-list dependencies are ids of listed nodes. -/
theorem inListDeps_subset_ids (nodes : List WNode) (n : WNode) (d : String)
    (hd : d ∈ inListDeps nodes n) : d ∈ idsOf nodes := by
  have := (List.mem_filter.mp hd).2
  exact scontains_mem.mp this

/-- Every listed id is found by `findNode`, at a node bearing that id. -/
theorem findNode_of_mem_ids (nodes : List WNode) (x : String)
    (hx : x ∈ idsOf nodes) :
    ∃ n, findNode nodes x = some n ∧ n.id = x ∧ n ∈ nodes := by
  cases hf : findNode nodes x with
  | none =>
      unfold findNode at hf
      rw [List.find?_eq_none] at hf
      obtain ⟨n, hn, hnx⟩ := List.mem_map.mp hx
      exact absurd (by simpa using hnx) (hf n hn)
  | some n =>
      refine ⟨n, rfl, ?_, List.mem_of_find?_eq_some hf⟩
      have := List.find?_some hf
      simpa using this

/-- With distinct ids, `findNode` at a listed node's id returns that node. -/
theorem findNode_self (nodes : List WNode) (n : WNode)
    (hids : (idsOf nodes).Nodup) (hn : n ∈ nodes) :
    findNode nodes n.id = some n := by
  induction nodes with
  | nil => simp at hn
  | cons m t ih =>
      have hids' : (idsOf t).Nodup ∧ m.id ∉ idsOf t := by
        have := hids
        rw [idsOf, List.map_cons, List.nodup_cons] at this
        exact ⟨this.2, this.1⟩
      rcases List.mem_cons.mp hn with rfl | hm
      · unfold findNode
        exact List.find?_cons_of_pos t (by simp)
      · have hne : m.id ≠ n.id := by
          intro h
          exact hids'.2 (h ▸ List.mem_map.mpr ⟨n, hm, rfl⟩)
        have hne' : ¬((fun x : WNode => x.id == n.id) m = true) := by
          simpa using hne
        unfold findNode
        rw [List.find?_cons_of_neg t hne']
        exact ih hids'.1 hm

/-- `contains` over a snoc of string lists. -/
theorem scontains_snoc (em : List String) (y x : String) :
    (em ++ [y]).contains x = (em.contains x || x == y) := by
  induction em with
  | nil =>
      rw [List.nil_append, List.contains_cons, List.contains_nil,
        Bool.or_false, Bool.false_or]
  | cons a t ih =>
      rw [List.cons_append, List.contains_cons, List.contains_cons, ih,
        Bool.or_assoc]

/-- Membership in the dependents of a node id. -/
theorem mem_dependentsOf (nodes : List WNode) (nid x : String) :
    x ∈ dependentsOf nodes nid ↔
      ∃ m ∈ nodes, m.id = x ∧ nid ∈ inListDeps nodes m := by
  unfold dependentsOf
  constructor
  · intro h
    obtain ⟨m, hm, hx⟩ := List.mem_map.mp h
    have hf := List.mem_filter.mp hm
    exact ⟨m, hf.1, hx, scontains_mem.mp hf.2⟩
  · rintro ⟨m, hm, rfl, hd⟩
    exact List.mem_map.mpr
      ⟨m, List.mem_filter.mpr ⟨hm, scontains_mem.mpr hd⟩, rfl⟩

/-- The dependents list has no duplicates when ids are distinct. -/
theorem dependentsOf_nodup (nodes : List WNode) (nid : String)
    (hids : (idsOf nodes).Nodup) : (dependentsOf nodes nid).Nodup := by
  unfold dependentsOf
  exact List.Nodup.sublist
    (List.Sublist.map (fun m => m.id) (List.filter_sublist nodes)) hids

/-- With distinct ids a node is determined by its id. -/
theorem node_id_inj (nodes : List WNode) (hids : (idsOf nodes).Nodup)
    (m n : WNode) (hm : m ∈ nodes) (hn : n ∈ nodes) (h : m.id = n.id) :
    m = n := by
  have h1 := findNode_self nodes m hids hm
  have h2 := findNode_self nodes n hids hn
  rw [h] at h1
  rw [h1] at h2
  exact Option.some.inj h2

/-- In an association list with distinct keys, the keys of the entries with
empty value-lists are exactly those looked up to the empty list. -/
theorem mem_empty_entries (l : List (String × List String))
    (hk : (l.map Prod.fst).Nodup) (x : String) :
    x ∈ (l.filter (fun p => p.2.isEmpty)).map (fun p => p.1) ↔
      alook l x = some [] := by
  induction l with
  | nil => simp [alook]
  | cons p t ih =>
      rw [List.map_cons, List.nodup_cons] at hk
      by_cases hx : p.1 = x
      · constructor
        · intro h
          rw [alook, if_pos hx]
          by_cases he : p.2.isEmpty = true
          · rw [List.isEmpty_iff.mp he]
          · exfalso
            rw [List.filter_cons, if_neg he] at h
            obtain ⟨q, hq, hqx⟩ := List.mem_map.mp h
            apply hk.1
            rw [hx, ← hqx]
            exact List.mem_map.mpr ⟨q, (List.mem_filter.mp hq).1, rfl⟩
        · intro h
          rw [alook, if_pos hx] at h
          have h2 : p.2 = [] := Option.some.inj h
          rw [List.filter_cons, if_pos (by simp [h2])]
          exact List.mem_map.mpr ⟨p, by simp, hx⟩
      · rw [alook, if_neg hx]
        rw [← ih hk.2]
        by_cases he : p.2.isEmpty = true
        · rw [List.filter_cons, if_pos he, List.map_cons]
          simp only [List.mem_cons]
          constructor
          · rintro (h | h)
            · exact absurd h.symm hx
            · exact h
          · intro h
            exact Or.inr h
        · rw [List.filter_cons, if_neg he]

/-- Effect of one emission on the outstanding-dependency dict: deleting the
emitted key and striking the emitted id from its dependents' lists is exactly
`outAbs` of the extended emitted set. -/
theorem outAbs_step (nodes : List WNode) (em : List String) (nodeId : String)
    (hids : (idsOf nodes).Nodup) (hdeps : ∀ n ∈ nodes, n.deps.Nodup) :
    ((outAbs nodes em).filter (fun p => p.1 != nodeId)).map
      (fun p =>
        if (dependentsOf nodes nodeId).contains p.1 then
          (p.1, p.2.erase nodeId)
        else p) =
      outAbs nodes (em ++ [nodeId]) := by
  unfold outAbs
  rw [List.filter_map, List.map_map, List.filter_filter]
  have hpred : ∀ n ∈ nodes,
      (((fun p : String × List String => p.1 != nodeId) ∘ fun n : WNode =>
          (n.id, (inListDeps nodes n).filter (fun d => !(em.contains d)))) n &&
        !(em.contains n.id)) =
      !((em ++ [nodeId]).contains n.id) := by
    intro n _
    cases hc : em.contains n.id <;> cases hb : n.id == nodeId <;>
      simp only [Function.comp_apply, bne, scontains_snoc, hc, hb] <;> decide
  rw [List.filter_congr hpred]
  apply List.map_congr_left
  intro n hn
  have hmem := (List.mem_filter.mp hn).1
  have hq := (List.mem_filter.mp hn).2
  have hq' : (em ++ [nodeId]).contains n.id = false := by
    cases h : (em ++ [nodeId]).contains n.id
    · rfl
    · rw [h] at hq; cases hq
  have hcem : em.contains n.id = false := by
    rw [scontains_snoc] at hq'
    cases h : em.contains n.id
    · rfl
    · rw [h] at hq'; cases hq'
  simp only [Function.comp_apply]
  by_cases hdc : (dependentsOf nodes nodeId).contains n.id = true
  · rw [if_pos hdc]
    have hin : nodeId ∈ inListDeps nodes n := by
      obtain ⟨m, hm, hmid, hdep⟩ :=
        (mem_dependentsOf nodes nodeId n.id).mp (scontains_mem.mp hdc)
      rw [node_id_inj nodes hids m n hm hmem hmid] at hdep
      exact hdep
    have hrnd : ((inListDeps nodes n).filter
        (fun d => !(em.contains d))).Nodup :=
      List.Nodup.filter _ (List.Nodup.filter _ (hdeps n hmem))
    rw [List.Nodup.erase_eq_filter hrnd, List.filter_filter]
    apply congrArg (fun l => (n.id, l))
    apply List.filter_congr
    intro d _
    cases hc : em.contains d <;> cases hb : d == nodeId <;>
      simp only [bne, scontains_snoc, hc, hb] <;> decide
  · rw [if_neg hdc]
    have hnotin : nodeId ∉ inListDeps nodes n := by
      intro hin
      exact hdc (scontains_mem.mpr
        ((mem_dependentsOf nodes nodeId n.id).mpr ⟨n, hmem, rfl, hin⟩))
    apply congrArg (fun l => (n.id, l))
    apply List.filter_congr
    intro d hd
    have hdne : (d == nodeId) = false := by
      have : d ≠ nodeId := fun h => hnotin (h ▸ hd)
      simpa using this
    rw [scontains_snoc, hdne, Bool.or_false]

/-- `isEmptyEntry` tests exactly for a key mapped to the empty list. -/
theorem isEmptyEntry_iff (o : List (String × List String)) (k : String) :
    isEmptyEntry o k = true ↔ alook o k = some [] := by
  unfold isEmptyEntry
  cases h : alook o k with
  | none => simp
  | some v => cases v <;> simp

/-- Unpacking an outstanding entry that holds the empty list. -/
theorem outstanding_empty_entry (nodes : List WNode) (em : List String)
    (x : String) (hids : (idsOf nodes).Nodup)
    (h : alook (outAbs nodes em) x = some []) :
    ∃ n, findNode nodes x = some n ∧ em.contains x = false ∧
      (inListDeps nodes n).filter (fun d => !(em.contains d)) = [] := by
  rw [alook_outAbs nodes em x hids] at h
  cases hf : findNode nodes x with
  | none =>
      simp only [hf] at h
      exact Option.noConfusion h
  | some n =>
      simp only [hf] at h
      by_cases hc : em.contains x = true
      · rw [if_pos hc] at h
        exact Option.noConfusion h
      · rw [if_neg hc] at h
        exact ⟨n, rfl, Bool.eq_false_iff.mpr hc, Option.some.inj h⟩

/-- The outstanding dict before anything is emitted. -/
theorem outAbs_nil (nodes : List WNode) :
    outAbs nodes [] = nodes.map (fun n => (n.id, inListDeps nodes n)) := by
  unfold outAbs
  have h1 : nodes.filter (fun n => !(([] : List String).contains n.id)) =
      nodes :=
    List.filter_eq_self.mpr (fun a _ => rfl)
  rw [h1]
  apply List.map_congr_left
  intro n _
  apply congrArg (fun l => (n.id, l))
  exact List.filter_eq_self.mpr (fun a _ => rfl)

/-- The scheduling invariant holds in the initial state built by
`create_subgraph`. -/
theorem init_inv (nodes : List WNode) (env : Bindings) (nid0 : Nat)
    (hids : (idsOf nodes).Nodup) :
    SchedInv nodes env nid0
      { outstanding := nodes.map (fun n => (n.id, inListDeps nodes n)),
        ready := ((nodes.map (fun n => (n.id, inListDeps nodes n))).filter
          (fun p => p.2.isEmpty)).map (fun p => p.1),
        emitted := [], jobs := [], leaves := [], nextId := nid0 } := by
  refine ⟨?_, ?_, ?_, ?_, ?_, ?_, ?_, ?_, ?_, ?_⟩
  · exact (outAbs_nil nodes).symm
  · exact List.Nodup.sublist
      (List.Sublist.map _ (List.filter_sublist _))
      (by rw [List.map_map]; exact hids)
  · intro x
    exact mem_empty_entries (nodes.map (fun n => (n.id, inListDeps nodes n)))
      (by rw [List.map_map]; exact hids) x
  · intro x hx
    simp [emIds] at hx
  · exact List.nodup_nil
  · rfl
  · rfl
  · intro d
    rfl
  · intro k jb h
    simp at h
  · rfl

/-- A filter that yields the empty list still does so for any stronger
predicate. -/
theorem filter_nil_mono {A : Type} (l : List A) (p q : A → Bool)
    (h : l.filter p = []) (himp : ∀ d ∈ l, q d = true → p d = true) :
    l.filter q = [] :=
  List.filter_eq_nil_iff.mpr
    (fun a ha hq => (List.filter_eq_nil_iff.mp h a ha) (himp a ha hq))

/-- One scheduling step preserves the loop invariant. -/
theorem step_inv (nodes : List WNode) (env : Bindings) (nid0 : Nat)
    (hids : (idsOf nodes).Nodup) (hdeps : ∀ n ∈ nodes, n.deps.Nodup)
    (s : SchedState) (hI : SchedInv nodes env nid0 s)
    (nodeId : String) (rest : List String) (w : WNode) (prevIds : List Nat)
    (hr : s.ready = nodeId :: rest)
    (hf : findNode nodes nodeId = some w)
    (hprev : lookupAll s.emitted (inListDeps nodes w) = some prevIds) :
    SchedInv nodes env nid0
      { outstanding := (s.outstanding.filter (fun p => p.1 != nodeId)).map
          (fun p =>
            if (dependentsOf nodes nodeId).contains p.1 then
              (p.1, p.2.erase nodeId)
            else p),
        ready := rest ++ (dependentsOf nodes nodeId).filter (fun d =>
          isEmptyEntry ((s.outstanding.filter (fun p => p.1 != nodeId)).map
            (fun p =>
              if (dependentsOf nodes nodeId).contains p.1 then
                (p.1, p.2.erase nodeId)
              else p)) d),
        emitted := s.emitted ++ [(nodeId, s.nextId)],
        jobs := s.jobs ++ [⟨s.nextId, .nodeJob w,
          prevIds.map RVal.future ++ [RVal.envv env]⟩],
        leaves :=
          if (dependentsOf nodes nodeId).isEmpty then s.leaves ++ [nodeId]
          else s.leaves,
        nextId := s.nextId + 1 } := by
  have hmemready : nodeId ∈ s.ready := by
    rw [hr]; exact List.mem_cons_self _ _
  have ha : alook s.outstanding nodeId = some [] :=
    (hI.readyIff nodeId).mp hmemready
  have ha2 : alook (outAbs nodes (emIds s)) nodeId = some [] := by
    rw [← hI.outEq]; exact ha
  obtain ⟨w', hf', hcem, hrem⟩ :=
    outstanding_empty_entry nodes (emIds s) nodeId hids ha2
  have hww : w' = w := by
    rw [hf] at hf'
    exact (Option.some.inj hf').symm
  subst hww
  have hwid : w'.id = nodeId := by
    have := List.find?_some hf
    simpa using this
  have hwmem : w' ∈ nodes := List.mem_of_find?_eq_some hf
  have hreadyN := hI.readyNodup
  rw [hr] at hreadyN
  have hnodup_rest : rest.Nodup := (List.nodup_cons.mp hreadyN).2
  have hnid_notin_rest : nodeId ∉ rest := (List.nodup_cons.mp hreadyN).1
  have hnotem_mem : nodeId ∉ emIds s := by
    intro hmem
    have h1 := scontains_mem.mpr hmem
    rw [hcem] at h1
    exact Bool.false_ne_true h1
  have hout' : (s.outstanding.filter (fun p => p.1 != nodeId)).map
      (fun p =>
        if (dependentsOf nodes nodeId).contains p.1 then
          (p.1, p.2.erase nodeId)
        else p) = outAbs nodes (emIds s ++ [nodeId]) := by
    rw [hI.outEq]
    exact outAbs_step nodes (emIds s) nodeId hids hdeps
  have hem' : (s.emitted ++ [(nodeId, s.nextId)]).map
      (fun p : String × Nat => p.1) = emIds s ++ [nodeId] := by
    rw [List.map_append]
    rfl
  refine ⟨?_, ?_, ?_, ?_, ?_, ?_, ?_, ?_, ?_, ?_⟩ <;> dsimp only [emIds]
  · rw [hem', hout']
  · show List.Nodup _
    refine List.Nodup.append hnodup_rest
      (List.Nodup.filter _ (dependentsOf_nodup nodes nodeId hids)) ?_
    intro a har han
    have hadep := (List.mem_filter.mp han).1
    have haready : a ∈ s.ready := by
      rw [hr]; exact List.mem_cons_of_mem _ har
    have hoa : alook (outAbs nodes (emIds s)) a = some [] := by
      rw [← hI.outEq]; exact (hI.readyIff a).mp haready
    obtain ⟨n, hfn, hca, hrema⟩ :=
      outstanding_empty_entry nodes (emIds s) a hids hoa
    obtain ⟨m, hmmem, hmid, hmdep⟩ := (mem_dependentsOf _ _ _).mp hadep
    have hnm : m = n := by
      have hnmem := List.mem_of_find?_eq_some hfn
      have hnid : n.id = a := by
        have := List.find?_some hfn
        simpa using this
      exact node_id_inj nodes hids m n hmmem hnmem (by rw [hmid, hnid])
    subst hnm
    have : nodeId ∈ (inListDeps nodes m).filter
        (fun d => !((emIds s).contains d)) :=
      List.mem_filter.mpr ⟨hmdep, by rw [hcem]; rfl⟩
    rw [hrema] at this
    simp at this
  · intro x
    constructor
    · intro hx
      rcases List.mem_append.mp hx with hxr | hxn
      · have hxready : x ∈ s.ready := by
          rw [hr]; exact List.mem_cons_of_mem _ hxr
        have hox : alook (outAbs nodes (emIds s)) x = some [] := by
          rw [← hI.outEq]; exact (hI.readyIff x).mp hxready
        obtain ⟨n, hfn, hcx, hremx⟩ :=
          outstanding_empty_entry nodes (emIds s) x hids hox
        have hxne : x ≠ nodeId := fun h => hnid_notin_rest (h ▸ hxr)
        show alook _ x = some []
        rw [hout', alook_outAbs nodes (emIds s ++ [nodeId]) x hids]
        simp only [hfn]
        have hcx' : (emIds s ++ [nodeId]).contains x = false := by
          rw [scontains_snoc, hcx]
          have : (x == nodeId) = false := by simpa using hxne
          rw [this]
          rfl
        rw [if_neg (by rw [hcx']; decide)]
        apply congrArg
        apply filter_nil_mono _ _ _ hremx
        intro d _ hq
        rw [scontains_snoc] at hq
        cases h1 : (emIds s).contains d
        · rfl
        · rw [h1] at hq
          cases hq
      · have hxdep := (List.mem_filter.mp hxn).1
        have hxe := (List.mem_filter.mp hxn).2
        exact (isEmptyEntry_iff _ _).mp hxe
    · intro halx
      have halx' : alook (outAbs nodes (emIds s ++ [nodeId])) x = some [] := by
        rw [← hout']; exact halx
      obtain ⟨n, hfn, hcx', hremx'⟩ :=
        outstanding_empty_entry nodes (emIds s ++ [nodeId]) x hids halx'
      have hcx : (emIds s).contains x = false := by
        rw [scontains_snoc] at hcx'
        cases h : (emIds s).contains x
        · rfl
        · rw [h] at hcx'
          cases hcx'
      have hxbne : (x == nodeId) = false := by
        rw [scontains_snoc, hcx, Bool.false_or] at hcx'
        exact hcx'
      have hxnodeId : x ≠ nodeId := by
        intro h
        rw [h] at hxbne
        simp at hxbne
      have hnmem : n ∈ nodes := List.mem_of_find?_eq_some hfn
      have hnid : n.id = x := by
        have := List.find?_some hfn
        simpa using this
      by_cases hold : (inListDeps nodes n).filter
          (fun d => !((emIds s).contains d)) = []
      · have hox : alook (outAbs nodes (emIds s)) x = some [] := by
          rw [alook_outAbs nodes (emIds s) x hids]
          simp only [hfn]
          rw [if_neg (by rw [hcx]; decide)]
          exact congrArg some hold
        have hxready : x ∈ s.ready :=
          (hI.readyIff x).mpr (by rw [hI.outEq]; exact hox)
        rw [hr] at hxready
        rcases List.mem_cons.mp hxready with h | h
        · exact absurd h hxnodeId
        · exact List.mem_append_left _ h
      · obtain ⟨d, hd⟩ := List.exists_mem_of_ne_nil _ hold
        have hdmem := List.mem_filter.mp hd
        have hdem : (emIds s).contains d = false := by
          have := hdmem.2
          cases h : (emIds s).contains d
          · rfl
          · rw [h] at this
            cases this
        have hdem' : (emIds s ++ [nodeId]).contains d = true := by
          have hnd := List.filter_eq_nil_iff.mp hremx' d hdmem.1
          cases h : (emIds s ++ [nodeId]).contains d
          · exact absurd (by rw [h]; rfl) hnd
          · rfl
        have hdnid : d = nodeId := by
          rw [scontains_snoc, hdem, Bool.false_or] at hdem'
          simpa using hdem'
        have hxdep : x ∈ dependentsOf nodes nodeId :=
          (mem_dependentsOf _ _ _).mpr ⟨n, hnmem, hnid, hdnid ▸ hdmem.1⟩
        exact List.mem_append_right _
          (List.mem_filter.mpr
            ⟨hxdep, (isEmptyEntry_iff _ _).mpr halx⟩)
  · intro x hx
    show x ∈ idsOf nodes
    rw [hem'] at hx
    rcases List.mem_append.mp hx with h | h
    · exact hI.emSub x h
    · rw [List.mem_singleton.mp h, ← hwid]
      exact List.mem_map.mpr ⟨w', hwmem, rfl⟩
  · show List.Nodup _
    rw [hem']
    exact List.Nodup.append hI.emNodup (List.nodup_singleton _)
      (fun a ha hb => hnotem_mem (List.mem_singleton.mp hb ▸ ha))
  · show (s.jobs ++ _).length = (s.emitted ++ _).length
    rw [List.length_append, List.length_append, hI.lenEq]
    rfl
  · show s.nextId + 1 = nid0 + (s.jobs ++ _).length
    rw [List.length_append, hI.nextEq]
    simp [Nat.add_assoc]
  · intro d
    show alook (s.emitted ++ [(nodeId, s.nextId)]) d =
      jobFor (s.jobs ++ [⟨s.nextId, .nodeJob w',
        prevIds.map RVal.future ++ [RVal.envv env]⟩]) d
    rw [alook_append]
    unfold jobFor
    rw [List.find?_append]
    have hold := hI.emJobs d
    unfold jobFor at hold
    cases hfind : s.jobs.find? (fun j => j.nodeIdOf == some d) with
    | some jb =>
        rw [hfind] at hold
        rw [hold]
        rfl
    | none =>
        rw [hfind] at hold
        rw [hold]
        simp only [Option.none_orElse, Option.none_or]
        by_cases hdn : nodeId = d
        · subst hdn
          rw [show alook [(nodeId, s.nextId)] nodeId = some s.nextId from by
            simp [alook]]
          rw [List.find?_cons_of_pos _ (by simp [JobRec.nodeIdOf, hwid])]
          rfl
        · rw [show alook [(nodeId, s.nextId)] d = none from by
            simp [alook, hdn]]
          rw [List.find?_cons_of_neg _ (by
            simp [JobRec.nodeIdOf, hwid]
            exact fun h => hdn h)]
          rfl
  · intro k jb hjb
    rcases Nat.lt_trichotomy k s.jobs.length with hk | hk | hk
    · rw [List.getElem?_append_left hk] at hjb
      obtain ⟨w2, hw2mem, hkind, hjid, hemk, ds, hds, hpreds⟩ :=
        hI.jobSpec k jb hjb
      refine ⟨w2, hw2mem, hkind, hjid, ?_, ds, ?_, hpreds⟩
      · rw [List.getElem?_append_left (by rw [← hI.lenEq]; exact hk)]
        exact hemk
      · rw [List.take_append_of_le_length
          (by rw [← hI.lenEq]; exact Nat.le_of_lt hk)]
        exact hds
    · subst hk
      have hjb' : jb = ⟨s.nextId, .nodeJob w',
          prevIds.map RVal.future ++ [RVal.envv env]⟩ := by
        rw [List.getElem?_concat_length] at hjb
        exact (Option.some.inj hjb).symm
      subst hjb'
      refine ⟨w', hwmem, rfl, ?_, ?_, prevIds, ?_, rfl⟩
      · show s.nextId = nid0 + s.jobs.length
        exact hI.nextEq
      · rw [hI.lenEq, List.getElem?_concat_length]
        rw [hwid, ← hI.lenEq, ← hI.nextEq]
      · rw [hI.lenEq, List.take_left' rfl]
        exact hprev
    · exfalso
      rw [List.getElem?_eq_none (by
        rw [List.length_append]
        simpa using hk)] at hjb
      exact Option.noConfusion hjb
  · show _ = List.filter _ _
    rw [hem', List.filter_append, ← hI.leavesEq]
    by_cases hdep : (dependentsOf nodes nodeId).isEmpty = true
    · rw [if_pos hdep]
      rw [show List.filter (fun x => (dependentsOf nodes x).isEmpty)
          [nodeId] = [nodeId] from by
        rw [List.filter_cons, if_pos hdep]
        rfl]
    · rw [if_neg hdep]
      rw [show List.filter (fun x => (dependentsOf nodes x).isEmpty)
          [nodeId] = [] from by
        rw [List.filter_cons, if_neg hdep]
        rfl]
      rw [List.append_nil]

/-- One scheduling step succeeds from any invariant state with a ready node,
preserves the invariant, shrinks the outstanding dict, and emits exactly the
picked node. -/
theorem step_spec (nodes : List WNode) (env : Bindings) (nid0 : Nat)
    (hids : (idsOf nodes).Nodup) (hdeps : ∀ n ∈ nodes, n.deps.Nodup)
    (s : SchedState) (hI : SchedInv nodes env nid0 s)
    (nodeId : String) (rest : List String) (hr : s.ready = nodeId :: rest) :
    ∃ s', stepOnce nodes env s = .ok s' ∧ SchedInv nodes env nid0 s' ∧
      s'.outstanding.length < s.outstanding.length ∧
      emIds s' = emIds s ++ [nodeId] := by
  have hmemready : nodeId ∈ s.ready := by
    rw [hr]; exact List.mem_cons_self _ _
  have ha : alook s.outstanding nodeId = some [] :=
    (hI.readyIff nodeId).mp hmemready
  have ha2 : alook (outAbs nodes (emIds s)) nodeId = some [] := by
    rw [← hI.outEq]; exact ha
  obtain ⟨w, hf, hcem, hrem⟩ :=
    outstanding_empty_entry nodes (emIds s) nodeId hids ha2
  have hlook : ∀ d ∈ inListDeps nodes w, (alook s.emitted d).isSome = true := by
    intro d hd
    have hnd := List.filter_eq_nil_iff.mp hrem d hd
    have hdem : (emIds s).contains d = true := by
      cases h : (emIds s).contains d
      · exact absurd (by rw [h]; rfl) hnd
      · rfl
    rw [alook_isSome_iff]
    exact scontains_mem.mp hdem
  obtain ⟨prevIds, hprev⟩ :=
    lookupAll_isSome s.emitted (inListDeps nodes w) hlook
  refine ⟨_, ?_,
    step_inv nodes env nid0 hids hdeps s hI nodeId rest w prevIds hr hf hprev,
    ?_, ?_⟩
  · simp only [stepOnce, hr, hf, hprev]
  · show (List.map _ (List.filter _ s.outstanding)).length < _
    rw [List.length_map]
    apply List.length_filter_lt_length_iff_exists.mpr
    obtain ⟨i, hi, hgi⟩ := alook_index s.outstanding nodeId [] ha
    refine ⟨(nodeId, []), List.getElem?_mem hgi, ?_⟩
    simp
  · show List.map _ (s.emitted ++ _) = _
    rw [List.map_append]
    rfl

/-- A topologically ordered graph has a source in every nonempty subset of
its vertices: an element none of whose dependencies lie in the subset. -/
theorem topo_source (nodes : List WNode) :
    ∀ ord : List String, topoOrderOk nodes ord = true →
    ∀ S : List String, (∀ x ∈ S, x ∈ ord) → S ≠ [] →
      ∃ src ∈ S, ∀ d ∈ depsOf nodes src, d ∉ S := by
  intro ord
  induction ord with
  | nil =>
      intro _ S hsub hne
      obtain ⟨x, hx⟩ := List.exists_mem_of_ne_nil S hne
      exact absurd (hsub x hx) (List.not_mem_nil x)
  | cons o rest ih =>
      intro htopo S hsub hne
      rw [topoOrderOk, Bool.and_eq_true] at htopo
      by_cases ho : o ∈ S
      · refine ⟨o, ho, ?_⟩
        intro d hd hdS
        have hda := List.all_eq_true.mp htopo.1 d hd
        rw [Bool.and_eq_true] at hda
        rcases List.mem_cons.mp (hsub d hdS) with h | h
        · have : (d != o) = true := hda.1
          rw [h] at this
          simp at this
        · have : (!(rest.contains d)) = true := hda.2
          rw [scontains_mem.mpr h] at this
          cases this
      · refine ih htopo.2 S ?_ hne
        intro x hx
        rcases List.mem_cons.mp (hsub x hx) with h | h
        · exact absurd (h ▸ hx) ho
        · exact h

/-- Under acyclicity, an invariant state with outstanding work has a ready
node. -/
theorem ready_nonempty (nodes : List WNode) (env : Bindings) (nid0 : Nat)
    (ord : List String) (hids : (idsOf nodes).Nodup)
    (htopo : isTopoOrder nodes ord = true)
    (s : SchedState) (hI : SchedInv nodes env nid0 s)
    (hne : s.outstanding ≠ []) :
    ∃ x rest, s.ready = x :: rest := by
  unfold isTopoOrder at htopo
  rw [Bool.and_eq_true, Bool.and_eq_true] at htopo
  have hall1 := htopo.1.1
  have htopoOk := htopo.2
  have hSne : s.outstanding.map Prod.fst ≠ [] := by
    intro h
    exact hne (List.map_eq_nil_iff.mp h)
  have hSsub : ∀ x ∈ s.outstanding.map Prod.fst, x ∈ ord := by
    intro x hx
    rw [hI.outEq] at hx
    obtain ⟨n, hn, hnid, _⟩ := (mem_keys_outAbs nodes (emIds s) x).mp hx
    have hxids : x ∈ idsOf nodes := List.mem_map.mpr ⟨n, hn, hnid⟩
    have := List.all_eq_true.mp hall1 x hxids
    exact scontains_mem.mp this
  obtain ⟨src, hsrcS, hsrc⟩ :=
    topo_source nodes ord htopoOk (s.outstanding.map Prod.fst) hSsub hSne
  have hsrcS' := hsrcS
  rw [hI.outEq] at hsrcS'
  obtain ⟨n, hnmem, hnid, hcsrc⟩ :=
    (mem_keys_outAbs nodes (emIds s) src).mp hsrcS'
  have hfind : findNode nodes src = some n := by
    rw [← hnid]
    exact findNode_self nodes n hids hnmem
  have hdepseq : depsOf nodes src = inListDeps nodes n := by
    unfold depsOf
    rw [hfind]
  have hrem : (inListDeps nodes n).filter
      (fun d => !((emIds s).contains d)) = [] := by
    apply List.filter_eq_nil_iff.mpr
    intro d hd hcon
    have hdem : (emIds s).contains d = false := by
      cases h : (emIds s).contains d
      · rfl
      · rw [h] at hcon
        exact absurd hcon (by decide)
    have hdids : d ∈ idsOf nodes := inListDeps_subset_ids nodes n d hd
    obtain ⟨m, hmmem, hmid⟩ := List.mem_map.mp hdids
    have hdS : d ∈ s.outstanding.map Prod.fst := by
      rw [hI.outEq]
      exact (mem_keys_outAbs nodes (emIds s) d).mpr ⟨m, hmmem, hmid, hdem⟩
    exact hsrc d (hdepseq ▸ hd) hdS
  have hsome : alook s.outstanding src = some [] := by
    rw [hI.outEq, alook_outAbs nodes (emIds s) src hids]
    simp only [hfind]
    rw [if_neg (by rw [hcsrc]; decide)]
    exact congrArg some hrem
  have hsrcready : src ∈ s.ready := (hI.readyIff src).mpr hsome
  cases hready : s.ready with
  | nil =>
      rw [hready] at hsrcready
      exact absurd hsrcready (List.not_mem_nil src)
  | cons x rest => exact ⟨x, rest, rfl⟩

/-- Whatever `runLoop` returns successfully satisfies the invariant with an
empty outstanding dict. -/
theorem runLoop_preserves (nodes : List WNode) (env : Bindings) (nid0 : Nat)
    (hids : (idsOf nodes).Nodup) (hdeps : ∀ n ∈ nodes, n.deps.Nodup) :
    ∀ (fuel : Nat) (s s' : SchedState), SchedInv nodes env nid0 s →
      runLoop nodes env fuel s = .ok s' →
      SchedInv nodes env nid0 s' ∧ s'.outstanding = [] := by
  intro fuel
  induction fuel with
  | zero =>
      intro s s' hI h
      unfold runLoop at h
      by_cases hempty : s.outstanding.isEmpty = true
      · rw [if_pos hempty] at h
        obtain rfl := Except.ok.inj h
        exact ⟨hI, List.isEmpty_iff.mp hempty⟩
      · rw [if_neg hempty] at h
        exact Except.noConfusion h
  | succ fuel ih =>
      intro s s' hI h
      unfold runLoop at h
      by_cases hempty : s.outstanding.isEmpty = true
      · rw [if_pos hempty] at h
        obtain rfl := Except.ok.inj h
        exact ⟨hI, List.isEmpty_iff.mp hempty⟩
      · rw [if_neg hempty] at h
        cases hstep : stepOnce nodes env s with
        | error e =>
            rw [hstep] at h
            exact Except.noConfusion h
        | ok s1 =>
            rw [hstep] at h
            cases hready : s.ready with
            | nil =>
                rw [show stepOnce nodes env s = .error .stopIteration from by
                  unfold stepOnce; rw [hready]] at hstep
                exact Except.noConfusion hstep
            | cons x rest =>
                obtain ⟨s2, hstep2, hI2, _, _⟩ :=
                  step_spec nodes env nid0 hids hdeps s hI x rest hready
                rw [hstep] at hstep2
                obtain rfl := Except.ok.inj hstep2
                exact ih s1 s' hI2 h

/-- Under acyclicity, `runLoop` succeeds with enough fuel. -/
theorem runLoop_total (nodes : List WNode) (env : Bindings) (nid0 : Nat)
    (ord : List String) (hids : (idsOf nodes).Nodup)
    (hdeps : ∀ n ∈ nodes, n.deps.Nodup)
    (htopo : isTopoOrder nodes ord = true) :
    ∀ (fuel : Nat) (s : SchedState), SchedInv nodes env nid0 s →
      s.outstanding.length ≤ fuel →
      ∃ s', runLoop nodes env fuel s = .ok s' := by
  intro fuel
  induction fuel with
  | zero =>
      intro s hI hle
      have : s.outstanding = [] :=
        List.eq_nil_of_length_eq_zero (Nat.le_zero.mp hle)
      refine ⟨s, ?_⟩
      unfold runLoop
      rw [if_pos (List.isEmpty_iff.mpr this)]
  | succ fuel ih =>
      intro s hI hle
      by_cases hempty : s.outstanding.isEmpty = true
      · refine ⟨s, ?_⟩
        unfold runLoop
        rw [if_pos hempty]
      · have hne : s.outstanding ≠ [] := fun h =>
          hempty (List.isEmpty_iff.mpr h)
        obtain ⟨x, rest, hready⟩ :=
          ready_nonempty nodes env nid0 ord hids htopo s hI hne
        obtain ⟨s1, hstep, hI1, hlen, _⟩ :=
          step_spec nodes env nid0 hids hdeps s hI x rest hready
        obtain ⟨s', hrun⟩ := ih s1 hI1 (by omega)
        refine ⟨s', ?_⟩
        unfold runLoop
        rw [if_neg hempty]
        rw [hstep]
        exact hrun

/-- Appending a job that is not a node job does not disturb `jobFor`. -/
theorem jobFor_append_nonnode (jobs : List JobRec) (j : JobRec)
    (hj : j.nodeIdOf = none) (d : String) :
    jobFor (jobs ++ [j]) d = jobFor jobs d := by
  unfold jobFor
  rw [List.find?_append]
  rw [show List.find? (fun jb => jb.nodeIdOf == some d) [j] = none from by
    rw [List.find?_cons_of_neg _ (by simp [hj])]
    rfl]
  rw [Option.or_none]

/-- The node ids of an aligned job list are the emitted ids, in order. -/
theorem filterMap_nodeIds_eq (jobs : List JobRec) :
    ∀ emitted : List (String × Nat), jobs.length = emitted.length →
    (∀ (k : Nat) (jb : JobRec), jobs[k]? = some jb →
      ∃ w : WNode, jb.kind = .nodeJob w ∧ ∃ v, emitted[k]? = some (w.id, v)) →
    jobs.filterMap JobRec.nodeIdOf = emitted.map (fun p => p.1) := by
  induction jobs with
  | nil =>
      intro emitted hlen _
      cases emitted with
      | nil => rfl
      | cons e et => simp at hlen
  | cons jb t ih =>
      intro emitted hlen hspec
      cases emitted with
      | nil => simp at hlen
      | cons e et =>
          obtain ⟨w, hkind, v, hev⟩ := hspec 0 jb (by simp)
          have he : e = (w.id, v) := by simpa using hev
          rw [List.filterMap_cons,
            show jb.nodeIdOf = some w.id from by
              unfold JobRec.nodeIdOf; rw [hkind],
            List.map_cons, he]
          apply congrArg (fun l => w.id :: l)
          refine ih et (by simpa using hlen) ?_
          intro k jb' hk
          obtain ⟨w', hkind', v', hev'⟩ := hspec (k + 1) jb' (by simpa using hk)
          exact ⟨w', hkind', v', by simpa using hev'⟩

/-- C1, core shape lemma: every completed `create_subgraph` invocation (on a
well-formed node list) satisfies the claimed sink/predecessor structure. -/
theorem c1_create_subgraph_shape (nodes : List WNode) (env : Bindings)
    (nid0 : Nat) (jobs : List JobRec) (sinkId nid' : Nat)
    (hids : (idsOf nodes).Nodup) (hdeps : ∀ n ∈ nodes, n.deps.Nodup)
    (hrun : WDLSectionJob.create_subgraph nodes env nid0 =
      .ok (jobs, sinkId, nid')) :
    C1Concl nodes env jobs sinkId := by
  simp only [WDLSectionJob.create_subgraph] at hrun
  split at hrun
  · exact Except.noConfusion hrun
  · rename_i s hloop
    split at hrun
    · exact Except.noConfusion hrun
    · rename_i ljs hleaf
      obtain ⟨hI, hout0⟩ := runLoop_preserves nodes env nid0 hids hdeps
        nodes.length _ s (init_inv nodes env nid0 hids) hloop
      have h := Except.ok.inj hrun
      injection h with h1 h2
      injection h2 with h2a h2b
      subst h1
      subst h2a
      have hjfor : ∀ d, alook s.emitted d = jobFor (s.jobs ++
          [⟨s.nextId, .combine, ljs.map RVal.future ++ [RVal.envv env]⟩]) d := by
        intro d
        rw [jobFor_append_nonnode s.jobs
          ⟨s.nextId, .combine, ljs.map RVal.future ++ [RVal.envv env]⟩ rfl d]
        exact hI.emJobs d
      have hmemids : ∀ x, x ∈ emIds s ↔ x ∈ idsOf nodes := by
        intro x
        constructor
        · exact hI.emSub x
        · intro hx
          obtain ⟨n, hn, hnid⟩ := List.mem_map.mp hx
          have houtnil : outAbs nodes (emIds s) = [] := by
            rw [← hI.outEq]; exact hout0
          have hfil : nodes.filter (fun m => !((emIds s).contains m.id)) =
              [] := by
            unfold outAbs at houtnil
            exact List.map_eq_nil_iff.mp houtnil
          have hnc := List.filter_eq_nil_iff.mp hfil n hn
          have hcon : (emIds s).contains n.id = true := by
            cases hc : (emIds s).contains n.id
            · exact absurd (by rw [hc]; rfl) hnc
            · rfl
          rw [← hnid]
          exact scontains_mem.mp hcon
      refine ⟨⟨s.nextId, .combine, ljs.map RVal.future ++ [RVal.envv env]⟩,
        s.leaves, ljs, List.getLast?_concat _, rfl, rfl, ?_, ?_, ?_, ?_, rfl,
        ?_⟩
      · rw [List.filter_append,
          show s.jobs.filter (fun j => j.isCombine) = [] from
            List.filter_eq_nil_iff.mpr (fun jb hjb hc => by
              obtain ⟨k, hk⟩ := List.mem_iff_getElem?.mp hjb
              obtain ⟨w, _, hkind, _⟩ := hI.jobSpec k jb hk
              rw [show jb.isCombine = false from by
                simp [JobRec.isCombine, hkind]] at hc
              exact Bool.noConfusion hc)]
        rfl
      · rw [hI.leavesEq]
        exact List.Nodup.filter _ hI.emNodup
      · intro x
        rw [hI.leavesEq, List.mem_filter]
        exact ⟨fun h => ⟨(hmemids x).mp h.1, h.2⟩,
          fun h => ⟨(hmemids x).mpr h.1, h.2⟩⟩
      · have hcongr := lookupAll_congr s.emitted _ hjfor s.leaves
        rw [hleaf] at hcongr
        exact hcongr.symm
      · intro jb hjb w hkind
        rcases List.mem_append.mp hjb with hmem | hmem
        · obtain ⟨k, hk⟩ := List.mem_iff_getElem?.mp hmem
          obtain ⟨w2, hw2mem, hkind2, hjid, hemk, ds, hds, hpreds⟩ :=
            hI.jobSpec k jb hk
          rw [hkind] at hkind2
          obtain rfl := JobKind.nodeJob.inj hkind2
          refine ⟨ds, ?_, hpreds⟩
          have hfull := lookupAll_of_take s.emitted k _ ds hds
          rw [lookupAll_congr s.emitted _ hjfor (inListDeps nodes w)] at hfull
          exact hfull
        · rw [List.mem_singleton.mp hmem] at hkind
          exact JobKind.noConfusion hkind

/-- C8, core lemma: on an acyclic node list the scheduling loop of
`create_subgraph` terminates, emitting exactly one node job per node, each
after all of its in-list dependencies. -/
theorem c8_create_subgraph_terminates (nodes : List WNode) (env : Bindings)
    (nid0 : Nat) (ord : List String)
    (hids : (idsOf nodes).Nodup) (hdeps : ∀ n ∈ nodes, n.deps.Nodup)
    (htopo : isTopoOrder nodes ord = true) :
    ∃ jobs sinkId nid',
      WDLSectionJob.create_subgraph nodes env nid0 =
        .ok (jobs, sinkId, nid') ∧ C8Concl nodes jobs := by
  obtain ⟨s, hloop⟩ := runLoop_total nodes env nid0 ord hids hdeps htopo
    nodes.length
    { outstanding := nodes.map (fun n => (n.id, inListDeps nodes n)),
      ready := ((nodes.map (fun n => (n.id, inListDeps nodes n))).filter
        (fun p => p.2.isEmpty)).map (fun p => p.1),
      emitted := [], jobs := [], leaves := [], nextId := nid0 }
    (init_inv nodes env nid0 hids)
    (by dsimp only; rw [List.length_map])
  obtain ⟨hI, hout0⟩ := runLoop_preserves nodes env nid0 hids hdeps
    nodes.length _ s (init_inv nodes env nid0 hids) hloop
  have hlsub : ∀ d ∈ s.leaves, (alook s.emitted d).isSome = true := by
    intro d hd
    rw [hI.leavesEq] at hd
    rw [alook_isSome_iff]
    exact (List.mem_filter.mp hd).1
  obtain ⟨ljs, hleaf⟩ := lookupAll_isSome s.emitted s.leaves hlsub
  refine ⟨s.jobs ++
    [⟨s.nextId, .combine, ljs.map RVal.future ++ [RVal.envv env]⟩],
    s.nextId, s.nextId + 1, ?_, ?_⟩
  · simp only [WDLSectionJob.create_subgraph, hloop, hleaf]
  · refine ⟨s.jobs,
      ⟨s.nextId, .combine, ljs.map RVal.future ++ [RVal.envv env]⟩,
      rfl, rfl, ?_, ?_, ?_⟩
    · rw [filterMap_nodeIds_eq s.jobs s.emitted hI.lenEq (fun k jb hk => by
        obtain ⟨w, _, hkind, _, hemk, _⟩ := hI.jobSpec k jb hk
        exact ⟨w, hkind, nid0 + k, hemk⟩)]
      apply (List.perm_ext_iff_of_nodup hI.emNodup hids).mpr
      intro x
      constructor
      · exact hI.emSub x
      · intro hx
        obtain ⟨n, hn, hnid⟩ := List.mem_map.mp hx
        have houtnil : outAbs nodes (emIds s) = [] := by
          rw [← hI.outEq]; exact hout0
        have hfil : nodes.filter (fun m => !((emIds s).contains m.id)) =
            [] := by
          unfold outAbs at houtnil
          exact List.map_eq_nil_iff.mp houtnil
        have hnc := List.filter_eq_nil_iff.mp hfil n hn
        have hcon : (emIds s).contains n.id = true := by
          cases hc : (emIds s).contains n.id
          · exact absurd (by rw [hc]; rfl) hnc
          · rfl
        rw [← hnid]
        exact scontains_mem.mp hcon
    · intro jb hjb
      obtain ⟨k, hk⟩ := List.mem_iff_getElem?.mp hjb
      obtain ⟨w, hwmem, hkind, _⟩ := hI.jobSpec k jb hk
      exact ⟨w, hwmem, hkind⟩
    · intro k jb hk w hkind d hd
      obtain ⟨w2, hw2mem, hkind2, hjid, hemk, ds, hds, hpreds⟩ :=
        hI.jobSpec k jb hk
      rw [hkind] at hkind2
      obtain rfl := JobKind.nodeJob.inj hkind2
      have hsome := lookupAll_mem_isSome _ _ _ hds d hd
      obtain ⟨j, hj⟩ := Option.isSome_iff_exists.mp hsome
      obtain ⟨i, hi, hgi⟩ := alook_index _ d j hj
      have hik : i < k :=
        Nat.lt_of_lt_of_le hi (by rw [List.length_take]; exact min_le_left _ _)
      have hemi : s.emitted[i]? = some (d, j) := by
        rw [List.getElem?_take_of_lt hik] at hgi
        exact hgi
      have hilen : i < s.jobs.length := by
        rw [hI.lenEq]
        obtain ⟨hlt, _⟩ := List.getElem?_eq_some_iff.mp hemi
        exact hlt
      obtain ⟨jb', hjb'⟩ : ∃ jb', s.jobs[i]? = some jb' :=
        ⟨s.jobs[i], List.getElem?_eq_getElem hilen⟩
      obtain ⟨w3, _, hkind3, _, hemk3, _⟩ := hI.jobSpec i jb' hjb'
      have hpair : (w3.id, nid0 + i) = (d, j) := by
        rw [hemk3] at hemi
        exact Option.some.inj hemi
      have hw3d : w3.id = d := (Prod.ext_iff.mp hpair).1
      refine ⟨i, jb', hik, hjb', ?_⟩
      rw [show jb'.nodeIdOf = some w3.id from by
        simp [JobRec.nodeIdOf, hkind3], hw3d]

/-- Characterization of the scatter loop: one `create_subgraph` invocation
per array element, in order, seeded with the scatter variable bound to the
element. -/
theorem scatterFold_spec (body : List WNode) (varName : String)
    (bindings : Bindings) :
    ∀ (items : List Value) (nid0 : Nat) (parts : List (List JobRec × Nat))
      (nid : Nat),
      scatterFold body varName bindings items nid0 = .ok (parts, nid) →
      parts.length = items.length ∧
      ∀ pi ∈ parts.zip items, ∃ a b,
        WDLSectionJob.create_subgraph body (bindB bindings varName pi.2) a =
          .ok (pi.1.1, pi.1.2, b) := by
  intro items
  induction items with
  | nil =>
      intro nid0 parts nid h
      rw [scatterFold] at h
      have h' := Except.ok.inj h
      injection h' with h1 h2
      subst h1
      exact ⟨rfl, by intro pi hpi; simp at hpi⟩
  | cons item rest ih =>
      intro nid0 parts nid h
      rw [scatterFold] at h
      split at h
      · exact Except.noConfusion h
      · rename_i jobs sinkId nid1 hcreate
        split at h
        · exact Except.noConfusion h
        · rename_i parts' nid2 hrest
          have h' := Except.ok.inj h
          injection h' with h1 h2
          subst h1
          obtain ⟨hlen, hall⟩ := ih nid1 parts' nid2 hrest
          refine ⟨by simp [hlen], ?_⟩
          intro pi hpi
          rw [List.zip_cons_cons] at hpi
          rcases List.mem_cons.mp hpi with h | h
          · subst h
            exact ⟨nid0, nid1, hcreate⟩
          · exact hall pi h

/-- C7: `WDLScatterJob.run` evaluates the scatter expression and fails with
the assertion error when the result is not an Array; on an Array it builds
exactly one subgraph per element, seeding each with the combined environment
extended by binding the scatter variable to the element, and returns the
future of a Combine job whose predecessors are exactly the subgraph sinks'
futures. -/
theorem c7_scatter_run_spec (sc : ScatterNode) (prev : List Bindings)
    (nid0 : Nat) :
    (∀ v, evalExpr sc.scExpr (combine_bindings prev) stdLibBase = .ok v →
      (∀ items, v ≠ .array items) →
      WDLScatterJob.run sc prev nid0 = .error .assertionError) ∧
    (∀ items parts nid,
      evalExpr sc.scExpr (combine_bindings prev) stdLibBase =
        .ok (.array items) →
      scatterFold sc.body sc.varName (combine_bindings prev) items nid0 =
        .ok (parts, nid) →
      WDLScatterJob.run sc prev nid0 =
        .ok ((parts.map (fun p => p.1)).flatten ++
          [⟨nid, .combine, parts.map (fun p => RVal.future p.2)⟩],
          .future nid, nid + 1) ∧
      parts.length = items.length ∧
      ∀ pi ∈ parts.zip items, ∃ a b,
        WDLSectionJob.create_subgraph sc.body
          (bindB (combine_bindings prev) sc.varName pi.2) a =
          .ok (pi.1.1, pi.1.2, b)) := by
  constructor
  · intro v hv hnot
    have hv' : evaluate_named_expression sc.varName none (some sc.scExpr)
        (combine_bindings prev) stdLibBase = .ok v := hv
    cases v with
    | array items => exact absurd rfl (hnot items)
    | null => simp only [WDLScatterJob.run, hv']
    | bool b => simp only [WDLScatterJob.run, hv']
    | int i => simp only [WDLScatterJob.run, hv']
    | str s => simp only [WDLScatterJob.run, hv']
    | file f => simp only [WDLScatterJob.run, hv']
    | bindingsVal e => simp only [WDLScatterJob.run, hv']
  · intro items parts nid hv hfold
    have hv' : evaluate_named_expression sc.varName none (some sc.scExpr)
        (combine_bindings prev) stdLibBase = .ok (.array items) := hv
    obtain ⟨hlen, hall⟩ :=
      scatterFold_spec sc.body sc.varName (combine_bindings prev) items nid0
        parts nid hfold
    refine ⟨?_, hlen, hall⟩
    simp only [WDLScatterJob.run, hv', hfold]

/-- Witness for C1: the two-node graph `a`, `b` where `b` depends on `a`,
scheduled with seed environment `e = 0` and first job id 0. -/
theorem c1_witness :
    (idsOf [⟨"a", []⟩, ⟨"b", ["a"]⟩]).Nodup ∧
    (∀ n ∈ [(⟨"a", []⟩ : WNode), ⟨"b", ["a"]⟩], n.deps.Nodup) ∧
    C1Concl [⟨"a", []⟩, ⟨"b", ["a"]⟩] [("e", Value.int 0)]
      [⟨0, .nodeJob ⟨"a", []⟩, [.envv [("e", Value.int 0)]]⟩,
       ⟨1, .nodeJob ⟨"b", ["a"]⟩, [.future 0, .envv [("e", Value.int 0)]]⟩,
       ⟨2, .combine, [.future 1, .envv [("e", Value.int 0)]]⟩] 2 :=
  ⟨by decide, by decide,
    c1_create_subgraph_shape [⟨"a", []⟩, ⟨"b", ["a"]⟩] [("e", Value.int 0)] 0
      [⟨0, .nodeJob ⟨"a", []⟩, [.envv [("e", Value.int 0)]]⟩,
       ⟨1, .nodeJob ⟨"b", ["a"]⟩, [.future 0, .envv [("e", Value.int 0)]]⟩,
       ⟨2, .combine, [.future 1, .envv [("e", Value.int 0)]]⟩] 2 3
      (by decide) (by decide) rfl⟩

/-- Witness for C8: the same two-node graph with the topological order
`a, b`. -/
theorem c8_witness :
    isTopoOrder [(⟨"a", []⟩ : WNode), ⟨"b", ["a"]⟩] ["a", "b"] = true ∧
    ∃ jobs sinkId nid',
      WDLSectionJob.create_subgraph [⟨"a", []⟩, ⟨"b", ["a"]⟩]
        [("e", Value.int 0)] 0 = .ok (jobs, sinkId, nid') ∧
      C8Concl [⟨"a", []⟩, ⟨"b", ["a"]⟩] jobs :=
  ⟨by decide,
    c8_create_subgraph_terminates [⟨"a", []⟩, ⟨"b", ["a"]⟩]
      [("e", Value.int 0)] 0 ["a", "b"] (by decide) (by decide) (by decide)⟩

/-- Witness for C7: a scatter of one element over an empty body. -/
theorem c7_witness :
    evalExpr (Expr.const (Value.array [Value.int 1])) (combine_bindings [[]])
      stdLibBase = .ok (.array [Value.int 1]) ∧
    scatterFold ([] : List WNode) "i" (combine_bindings [[]])
      [Value.int 1] 0 =
      .ok ([([⟨0, .combine, [.envv [("i", Value.int 1)]]⟩], 0)], 1) ∧
    WDLScatterJob.run ⟨"i", .const (.array [.int 1]), []⟩ [[]] 0 =
      .ok ([⟨0, .combine, [.envv [("i", Value.int 1)]]⟩,
        ⟨1, .combine, [.future 0]⟩], .future 1, 2) :=
  ⟨rfl, rfl,
    ((c7_scatter_run_spec ⟨"i", .const (.array [.int 1]), []⟩ [[]] 0).2
      [Value.int 1] [([⟨0, .combine, [.envv [("i", Value.int 1)]]⟩], 0)] 1
      rfl rfl).1⟩
